import Mathlib

/-!
Verification of the minesweeper core (`src/minesweeper.py`).

The Python classes `Game` and `Cell` are embedded shallowly: the mutable
cell list becomes a total function `ℕ → Cell` over linear indices (the
constructor builds `cells[x * n_cells_y + y] = Cell(x, y)`, proved below as
`Game.init_cells`), object mutation becomes functional record update, and
the recursive cascade `click_update_cell` becomes a fuel-indexed function
(fuel `width*height + 1` is proved sufficient).  Sprite and rendering
state is omitted: it mirrors `is_clicked` / `is_flagged` / `surrounding`
and is never read back by the game logic.  The randomness drawn by
`random.sample(range(n_cells-1), n_bombs)` is passed in as an explicit
`sample` argument, constrained by `ValidSample` exactly as the library
guarantees (distinct values below `n_cells - 1`).
-/

namespace Minesweeper

/-- One grid cell (`Cell.__init__`): grid coordinates, clicked / bomb /
flagged flags, and the surrounding-bomb count (`None` until generation,
and forever `None` on bombs). -/
structure Cell where
  x : ℕ
  y : ℕ
  isClicked : Bool
  isBomb : Bool
  surrounding : Option ℕ
  isFlagged : Bool
deriving DecidableEq

/-- `Cell.__init__(x_cell, y_cell)`. -/
def Cell.mkInit (x y : ℕ) : Cell :=
  { x := x, y := y, isClicked := false, isBomb := false,
    surrounding := none, isFlagged := false }

/-- `Cell.click_update`: mark the cell clicked; the returned number is 0
for a bomb and 1 otherwise (the caller adds it to `n_clicked_cells`). -/
def Cell.clickUpdate (c : Cell) : Cell × ℕ :=
  ({ c with isClicked := true }, if c.isBomb then 0 else 1)

/-- `Cell.flag_update`: no-op on a clicked cell, otherwise flip the flag. -/
def Cell.flagUpdate (c : Cell) : Cell :=
  if c.isClicked then c
  else if c.isFlagged then { c with isFlagged := false }
  else { c with isFlagged := true }

/-- `Game` state.  `bombs` is the bomb index list (`[]` standing for the
initial Python `None`), `surroundGrid` the flattened convolution result
(never read before `set_bombs` writes it). -/
structure Game where
  nCellsX : ℕ
  nCellsY : ℕ
  nBombs : ℕ
  nClickedCells : ℕ
  bombs : List ℕ
  surroundGrid : ℕ → ℕ
  cells : ℕ → Cell
  won : Bool
  lost : Bool

/-- `self.n_cells = n_cells_x * n_cells_y`. -/
def Game.nCells (g : Game) : ℕ := g.nCellsX * g.nCellsY

/-- The cell list built by `Game.__init__`'s double loop:
`for i in range(n_cells_x): for j in range(n_cells_y): append(Cell(i, j))`. -/
def initCellList (nx ny : ℕ) : List Cell :=
  (List.range nx).flatMap fun i => (List.range ny).map fun j => Cell.mkInit i j

/-- `Game.__init__(n_cells_x, n_cells_y, n_bombs)`. -/
def Game.mkInit (nx ny nb : ℕ) : Game :=
  { nCellsX := nx, nCellsY := ny, nBombs := nb, nClickedCells := 0,
    bombs := [], surroundGrid := fun _ => 0,
    cells := fun i => (initCellList nx ny).getD i (Cell.mkInit (i / ny) (i % ny)),
    won := false, lost := false }

/-- The eight offsets of the 3×3 all-ones kernel with zeroed centre used by
`count_surrounding_bombs` (`signal.convolve2d(bomb_grid, kernel, mode="same")`
with zero padding); listed in the cascade's neighbour order, which is
irrelevant to the sum. -/
def kernelOffs : List (ℤ × ℤ) :=
  [(-1, 0), (-1, -1), (-1, 1), (1, 0), (1, -1), (1, 1), (0, -1), (0, 1)]

/-- The zero-padded binary bomb indicator grid
(`bomb_grid[bomb // n_cells_y, bomb % n_cells_y] = 1`): position `(X, Y)`
holds 1 exactly when it is inside the grid and its linear index is a bomb. -/
def bombInd (nx ny : ℕ) (bombs : List ℕ) (X Y : ℤ) : ℕ :=
  if 0 ≤ X ∧ X < (nx : ℤ) ∧ 0 ≤ Y ∧ Y < (ny : ℤ) ∧ X.toNat * ny + Y.toNat ∈ bombs
  then 1 else 0

/-- One entry of `signal.convolve2d(bomb_grid, kernel, mode="same")`:
the kernel-weighted sum of the padded indicator around `(x, y)`. -/
def convAt (nx ny : ℕ) (bombs : List ℕ) (x y : ℕ) : ℕ :=
  (kernelOffs.map fun d => bombInd nx ny bombs ((x : ℤ) + d.1) ((y : ℤ) + d.2)).sum

/-- `Game.count_surrounding_bombs`, flattened row-major
(`surround_grid.flatten()` maps linear index `i` to entry
`(i / n_cells_y, i % n_cells_y)`): the convolution value, overwritten with
0 at bomb positions. -/
def countSurroundingBombs (nx ny : ℕ) (bombs : List ℕ) (i : ℕ) : ℕ :=
  if i ∈ bombs then 0 else convAt nx ny bombs (i / ny) (i % ny)

/-- The remapping `bomb + 1 if bomb >= cell_no else bomb` in `set_bombs`. -/
def shiftBomb (cellNo b : ℕ) : ℕ := if cellNo ≤ b then b + 1 else b

/-- `Game.set_bombs(cell_no)` with the drawn `sample` made explicit: shift
the sample to skip `cell_no`, compute the surround grid, then mark bomb
cells and write the counts on all the others. -/
def Game.setBombs (g : Game) (sample : List ℕ) (cellNo : ℕ) : Game :=
  let bombs := sample.map (shiftBomb cellNo)
  let sg := countSurroundingBombs g.nCellsX g.nCellsY bombs
  { g with
    bombs := bombs, surroundGrid := sg,
    cells := fun i =>
      if i < g.nCells then
        if i ∈ bombs then { g.cells i with isBomb := true }
        else { g.cells i with surrounding := some (sg i) }
      else g.cells i }

/-- The neighbour indices the cascade of `click_update_cell` recurses
into, in source order, for a cell with coordinates `(x, y)` and
`cell_no = n_cells_y * x + y`. -/
def targetsXY (nx ny x y : ℕ) : List ℕ :=
  let cellNo := ny * x + y
  (if x ≠ 0 then
    [cellNo - ny] ++ (if y ≠ 0 then [cellNo - ny - 1] else [])
      ++ (if y ≠ ny - 1 then [cellNo - ny + 1] else [])
  else [])
  ++ (if x ≠ nx - 1 then
    [cellNo + ny] ++ (if y ≠ 0 then [cellNo + ny - 1] else [])
      ++ (if y ≠ ny - 1 then [cellNo + ny + 1] else [])
  else [])
  ++ (if y ≠ 0 then [cellNo - 1] else [])
  ++ (if y ≠ ny - 1 then [cellNo + 1] else [])

/-- The loss branch of `click_update_cell`: set `lost` and click every
bomb cell of the board to show the solution (their return values are
discarded). -/
def bombBatch (g : Game) : Game :=
  { g with
    lost := true,
    cells := fun j =>
      if j < g.nCells ∧ (g.cells j).isBomb = true then ((g.cells j).clickUpdate).1
      else g.cells j }

/-- The line `self.n_clicked_cells += clicked_cell.click_update()`: click
the cell at `idx` and add the returned 0 or 1 to the counter. -/
def markCell (g : Game) (idx : ℕ) : Game :=
  let u := (g.cells idx).clickUpdate
  { g with
    cells := fun j => if j = idx then u.1 else g.cells j,
    nClickedCells := g.nClickedCells + u.2 }

/-- The entry of `click_update_cell`: compute
`cell_no = n_cells_y * clicked_cell.x + clicked_cell.y` and generate the
bombs with `cell_no` excluded when no cell has been clicked yet. -/
def maybeSetBombs (sample : List ℕ) (g : Game) (idx : ℕ) : Game :=
  let cellNo := g.nCellsY * (g.cells idx).x + (g.cells idx).y
  if g.nClickedCells = 0 then g.setBombs sample cellNo else g

/-- `Game.click_update_cell(clicked_cell)`, recursion made explicit with
fuel.  Each step follows the source: compute `cell_no` from the cell's
coordinates, generate bombs if nothing is clicked yet, return if the cell
is clicked, run the loss branch on a bomb, then click the cell itself, and
if its `surrounding` equals 0 recurse into the neighbours in source
order. -/
def clickUpdateCellF (sample : List ℕ) : ℕ → Game → ℕ → Game
  | 0, g, _ => g
  | f + 1, g, idx =>
    let g1 := maybeSetBombs sample g idx
    if (g1.cells idx).isClicked then g1
    else
      let g2 := if (g1.cells idx).isBomb then bombBatch g1 else g1
      let g3 := markCell g2 idx
      if (g3.cells idx).surrounding = some 0 then
        (targetsXY g3.nCellsX g3.nCellsY (g3.cells idx).x (g3.cells idx).y).foldl
          (fun h j => clickUpdateCellF sample f h j) g3
      else g3

/-- `Game.click_update_cell`: fuel `width*height + 1` is sufficient (each
cell is clicked at most once, see the fuel-stability theorems below). -/
def Game.clickUpdateCell (g : Game) (sample : List ℕ) (idx : ℕ) : Game :=
  clickUpdateCellF sample (g.nCells + 1) g idx

/-- The main loop's right-click path: `cell.flag_update()` applied to the
cell at `idx`. -/
def Game.flagUpdateAt (g : Game) (idx : ℕ) : Game :=
  { g with cells := fun j => if j = idx then (g.cells j).flagUpdate else g.cells j }

/-- The win re-check at the top of the main loop:
`if game.n_clicked_cells == N_CELLS - N_BOMBS: game.won = True`. -/
def Game.winCheck (g : Game) : Game :=
  if g.nClickedCells = g.nCells - g.nBombs then { g with won := true } else g

/-- A board input event dispatched by the main loop: a left click
(with the randomness it may consume) or a right click, on the cell hit. -/
inductive Ev where
  | click (sample : List ℕ) (idx : ℕ)
  | flag (idx : ℕ)

/-- Event dispatch in the main loop: button 1 calls `click_update_cell`,
button 3 calls `flag_update`. -/
def Game.processEvent (g : Game) (e : Ev) : Game :=
  match e with
  | .click s i => g.clickUpdateCell s i
  | .flag i => g.flagUpdateAt i

/-- One iteration of `while not(game.won or game.lost)`: nothing runs when
the game is terminal; otherwise the win re-check, then the queued events. -/
def Game.loopIter (g : Game) (evs : List Ev) : Game :=
  if g.won || g.lost then g else evs.foldl Game.processEvent g.winCheck

/-- What `random.sample(range(nCells - 1), k)` guarantees about the draw:
distinct values, `k` of them, all below `nCells - 1`. -/
def ValidSample (nCells k : ℕ) (s : List ℕ) : Prop :=
  s.Nodup ∧ s.length = k ∧ ∀ v ∈ s, v < nCells - 1

/-- Number of unclicked cells on the board (the cascade's termination
measure). -/
def unclickedCount (g : Game) : ℕ :=
  ((List.range g.nCells).filter fun j => !(g.cells j).isClicked).length

/-- Number of clicked non-bomb cells (the quantity `n_clicked_cells`
tracks). -/
def clickedSafeCount (g : Game) : ℕ :=
  ((List.range g.nCells).filter fun j =>
    (g.cells j).isClicked && !(g.cells j).isBomb).length

/-- The coordinates stored in the cells match the linear indexing
`index = x * n_cells_y + y` fixed by the constructor's append order. -/
def Coherent (g : Game) : Prop :=
  ∀ j, j < g.nCells →
    (g.cells j).x = j / g.nCellsY ∧ (g.cells j).y = j % g.nCellsY

instance (g : Game) : Decidable (Coherent g) := by
  unfold Coherent
  exact inferInstance

/-- Geometric 8-adjacency between linear indices: both in range, distinct,
and their grid coordinates (column `i / ny`, row `i % ny`) differ by at
most one in each direction. -/
def Adj (nx ny : ℕ) (i j : ℕ) : Prop :=
  i < nx * ny ∧ j < nx * ny ∧ i ≠ j ∧
    i / ny ≤ j / ny + 1 ∧ j / ny ≤ i / ny + 1 ∧
    i % ny ≤ j % ny + 1 ∧ j % ny ≤ i % ny + 1

instance (nx ny i j : ℕ) : Decidable (Adj nx ny i j) := by
  unfold Adj
  exact inferInstance

/-- The number of bombs among the geometric neighbours of linear index `i`
(the specification's neighbour count). -/
def adjBombCount (g : Game) (i : ℕ) : ℕ :=
  ((List.range g.nCells).filter fun k =>
    decide (Adj g.nCellsX g.nCellsY i k) && (g.cells k).isBomb).length

/-- A generated board (the state `set_bombs` leaves behind): bomb cells
keep `surrounding = None`, every other cell stores exactly its number of
geometrically adjacent bombs. -/
def Generated (g : Game) : Prop :=
  ∀ j, j < g.nCells →
    ((g.cells j).isBomb = true → (g.cells j).surrounding = none) ∧
    ((g.cells j).isBomb = false → (g.cells j).surrounding = some (adjBombCount g j))

instance (g : Game) : Decidable (Generated g) := by
  unfold Generated
  exact inferInstance

/-- The reveal closure claimed for the cascade: the start cell, plus one
adjacency step beyond every reachable zero-count cell (chains of adjacent
zero cells, and their non-zero border). -/
inductive ZReach (g : Game) (s : ℕ) : ℕ → Prop
  | start : ZReach g s s
  | next {j k : ℕ} : ZReach g s j → (g.cells j).surrounding = some 0 →
      Adj g.nCellsX g.nCellsY j k → ZReach g s k

/-- Game states reachable through the program's operations: the freshly
constructed game, then any interleaving of main-loop win checks, left
clicks on real cells (with a valid random draw), and right clicks. -/
inductive Reachable : Game → Prop
  | init (nx ny nb : ℕ) : Reachable (Game.mkInit nx ny nb)
  | check {g : Game} : Reachable g → Reachable g.winCheck
  | click {g : Game} (sample : List ℕ) (idx : ℕ)
      (hs : ValidSample g.nCells g.nBombs sample) (hi : idx < g.nCells) :
      Reachable g → Reachable (g.clickUpdateCell sample idx)
  | flag {g : Game} (idx : ℕ) : Reachable g → Reachable (g.flagUpdateAt idx)

/-! ### Generic invariant machinery -/

theorem foldl_rel {F : Game → ℕ → Game} (P : Game → Prop) (R : Game → Game → Prop)
    (hrefl : ∀ g, R g g) (htrans : ∀ a b c, R a b → R b c → R a c) :
    ∀ (ts : List ℕ) (g : Game),
      (∀ h j, j ∈ ts → P h → R h (F h j) ∧ P (F h j)) → P g →
      R g (ts.foldl F g) ∧ P (ts.foldl F g) := by
  intro ts
  induction ts with
  | nil => intro g _ hg; exact ⟨hrefl g, hg⟩
  | cons t ts ih =>
    intro g hstep hg
    have h1 := hstep g t (List.mem_cons_self t ts) hg
    have h2 := ih (F g t) (fun h j hj hh => hstep h j (List.mem_cons_of_mem _ hj) hh) h1.2
    exact ⟨htrans _ _ _ h1.1 h2.1, h2.2⟩

/-! ### What every cascade step preserves -/

/-- State components that every `click_update_cell` step preserves:
dimensions, the win flag, cell coordinates and flags; clicked cells stay
clicked and the click counter never decreases. -/
def StepPres (g g' : Game) : Prop :=
  g'.nCellsX = g.nCellsX ∧ g'.nCellsY = g.nCellsY ∧ g'.nBombs = g.nBombs ∧
  g'.won = g.won ∧ g.nClickedCells ≤ g'.nClickedCells ∧
  ∀ j, (g'.cells j).x = (g.cells j).x ∧ (g'.cells j).y = (g.cells j).y ∧
    (g'.cells j).isFlagged = (g.cells j).isFlagged ∧
    ((g.cells j).isClicked = true → (g'.cells j).isClicked = true)

theorem StepPres.refl (g : Game) : StepPres g g :=
  ⟨rfl, rfl, rfl, rfl, le_refl _, fun _ => ⟨rfl, rfl, rfl, fun h => h⟩⟩

theorem StepPres.trans {a b c : Game} (h1 : StepPres a b) (h2 : StepPres b c) :
    StepPres a c := by
  obtain ⟨e1, e2, e3, e4, e5, e6⟩ := h1
  obtain ⟨f1, f2, f3, f4, f5, f6⟩ := h2
  refine ⟨f1.trans e1, f2.trans e2, f3.trans e3, f4.trans e4, e5.trans f5, fun j => ?_⟩
  obtain ⟨a1, a2, a3, a4⟩ := e6 j
  obtain ⟨b1, b2, b3, b4⟩ := f6 j
  exact ⟨b1.trans a1, b2.trans a2, b3.trans a3, fun h => b4 (a4 h)⟩

theorem StepPres.nCells_eq {g g' : Game} (h : StepPres g g') : g'.nCells = g.nCells := by
  unfold Game.nCells
  rw [h.1, h.2.1]

theorem stepPres_setBombs (g : Game) (s : List ℕ) (c : ℕ) :
    StepPres g (g.setBombs s c) := by
  refine ⟨rfl, rfl, rfl, rfl, le_refl _, fun j => ?_⟩
  simp only [Game.setBombs]
  split_ifs <;> exact ⟨rfl, rfl, rfl, fun h => h⟩

theorem stepPres_maybeSetBombs (s : List ℕ) (g : Game) (idx : ℕ) :
    StepPres g (maybeSetBombs s g idx) := by
  unfold maybeSetBombs
  split_ifs
  · exact stepPres_setBombs ..
  · exact StepPres.refl g

theorem stepPres_bombBatch (g : Game) : StepPres g (bombBatch g) := by
  refine ⟨rfl, rfl, rfl, rfl, le_refl _, fun j => ?_⟩
  simp only [bombBatch, Cell.clickUpdate]
  split_ifs <;> exact ⟨rfl, rfl, rfl, fun h => by simp [h]⟩

theorem stepPres_markCell (g : Game) (idx : ℕ) : StepPres g (markCell g idx) := by
  refine ⟨rfl, rfl, rfl, rfl, Nat.le_add_right _ _, fun j => ?_⟩
  simp only [markCell, Cell.clickUpdate]
  split_ifs with h
  · subst h
    exact ⟨rfl, rfl, rfl, fun _ => rfl⟩
  · exact ⟨rfl, rfl, rfl, fun hh => hh⟩

theorem stepPres_cucF (s : List ℕ) :
    ∀ (f : ℕ) (g : Game) (idx : ℕ), StepPres g (clickUpdateCellF s f g idx) := by
  intro f
  induction f with
  | zero => intro g idx; exact StepPres.refl g
  | succ f ih =>
    intro g idx
    simp only [clickUpdateCellF]
    refine StepPres.trans (stepPres_maybeSetBombs s g idx) ?_
    set g1 := maybeSetBombs s g idx with hg1
    by_cases hcl : (g1.cells idx).isClicked = true
    · rw [if_pos hcl]
      exact StepPres.refl g1
    · rw [if_neg hcl]
      set g2 := if (g1.cells idx).isBomb = true then bombBatch g1 else g1 with hg2
      have h12 : StepPres g1 g2 := by
        rw [hg2]
        split_ifs
        · exact stepPres_bombBatch g1
        · exact StepPres.refl g1
      refine StepPres.trans h12 ?_
      refine StepPres.trans (stepPres_markCell g2 idx) ?_
      set g3 := markCell g2 idx with hg3
      split_ifs with hsur
      · exact (foldl_rel (fun _ => True) StepPres StepPres.refl
          (fun _ _ _ => StepPres.trans) _ g3
          (fun h j _ _ => ⟨ih h j, trivial⟩) trivial).1
      · exact StepPres.refl g3

theorem stepPres_clickUpdateCell (g : Game) (s : List ℕ) (idx : ℕ) :
    StepPres g (g.clickUpdateCell s idx) :=
  stepPres_cucF s (g.nCells + 1) g idx

/-! ### C2: the mine layout generator -/

theorem shiftBomb_injective (cellNo : ℕ) : Function.Injective (shiftBomb cellNo) := by
  intro a b hab
  unfold shiftBomb at hab
  split_ifs at hab <;> omega

/-- C2: for a valid draw (distinct values below `total_cells - 1`),
`set_bombs` produces exactly `mine_count` distinct bomb indices, all in
range and all different from the excluded cell. -/
theorem setBombs_layout_contract (g : Game) (sample : List ℕ) (cellNo : ℕ)
    (hs : ValidSample g.nCells g.nBombs sample) :
    (g.setBombs sample cellNo).bombs.Nodup ∧
    (g.setBombs sample cellNo).bombs.length = g.nBombs ∧
    ∀ b ∈ (g.setBombs sample cellNo).bombs, b < g.nCells ∧ b ≠ cellNo := by
  obtain ⟨hnd, hlen, hmem⟩ := hs
  have hbombs : (g.setBombs sample cellNo).bombs = sample.map (shiftBomb cellNo) := rfl
  rw [hbombs]
  refine ⟨hnd.map (shiftBomb_injective cellNo), by simpa using hlen, ?_⟩
  intro b hb
  obtain ⟨v, hv, hvb⟩ := List.mem_map.mp hb
  have := hmem v hv
  unfold shiftBomb at hvb
  split_ifs at hvb <;> omega

/-- Concrete instance of C2: a 3×3 board with 8 mines and the centre
excluded. -/
theorem setBombs_layout_contract_witness :
    ValidSample (Game.mkInit 3 3 8).nCells (Game.mkInit 3 3 8).nBombs
      [0, 1, 2, 3, 4, 5, 6, 7] ∧
    ((Game.mkInit 3 3 8).setBombs [0, 1, 2, 3, 4, 5, 6, 7] 4).bombs.Nodup ∧
    ((Game.mkInit 3 3 8).setBombs [0, 1, 2, 3, 4, 5, 6, 7] 4).bombs.length =
      (Game.mkInit 3 3 8).nBombs ∧
    ∀ b ∈ ((Game.mkInit 3 3 8).setBombs [0, 1, 2, 3, 4, 5, 6, 7] 4).bombs,
      b < (Game.mkInit 3 3 8).nCells ∧ b ≠ 4 := by
  have hv : ValidSample (Game.mkInit 3 3 8).nCells (Game.mkInit 3 3 8).nBombs
      [0, 1, 2, 3, 4, 5, 6, 7] := by
    refine ⟨by decide, by decide, by decide⟩
  exact ⟨hv, setBombs_layout_contract (Game.mkInit 3 3 8) [0, 1, 2, 3, 4, 5, 6, 7] 4 hv⟩

/-! ### C8: flag toggling -/

/-- C8: flagging a revealed cell is a no-op, and on an unrevealed cell
`flag_update` twice restores the original flag state. -/
theorem flagUpdate_noop_and_involutive (c : Cell) :
    (c.isClicked = true → c.flagUpdate = c) ∧
    (c.isClicked = false → (c.flagUpdate.flagUpdate).isFlagged = c.isFlagged) := by
  constructor
  · intro h
    unfold Cell.flagUpdate
    rw [h]
    simp
  · intro h
    unfold Cell.flagUpdate
    rw [h]
    cases hf : c.isFlagged <;> simp [hf]

/-- Concrete instance of C8: a clicked cell trivially unchanged, and a
flagged unclicked cell whose flag survives a double toggle. -/
theorem flagUpdate_noop_and_involutive_witness :
    (Cell.flagUpdate ⟨0, 0, true, false, none, false⟩ = ⟨0, 0, true, false, none, false⟩) ∧
    ((Cell.flagUpdate (Cell.flagUpdate ⟨0, 1, false, false, none, true⟩)).isFlagged =
      Cell.isFlagged ⟨0, 1, false, false, none, true⟩) :=
  ⟨(flagUpdate_noop_and_involutive ⟨0, 0, true, false, none, false⟩).1 rfl,
   (flagUpdate_noop_and_involutive ⟨0, 1, false, false, none, true⟩).2 rfl⟩

theorem stepPres_cucFold (s : List ℕ) (f : ℕ) (ts : List ℕ) (g : Game) :
    StepPres g (ts.foldl (fun h j => clickUpdateCellF s f h j) g) :=
  (foldl_rel (fun _ => True) StepPres StepPres.refl (fun _ _ _ => StepPres.trans) ts g
    (fun h j _ _ => ⟨stepPres_cucF s f h j, trivial⟩) trivial).1

theorem setBombs_isClicked (g : Game) (s : List ℕ) (c j : ℕ) :
    ((g.setBombs s c).cells j).isClicked = (g.cells j).isClicked := by
  simp only [Game.setBombs]
  split_ifs <;> rfl

theorem maybeSetBombs_isClicked (s : List ℕ) (g : Game) (idx j : ℕ) :
    ((maybeSetBombs s g idx).cells j).isClicked = (g.cells j).isClicked := by
  unfold maybeSetBombs
  split_ifs
  · exact setBombs_isClicked ..
  · rfl

theorem markCell_self_clicked (g : Game) (idx : ℕ) :
    ((markCell g idx).cells idx).isClicked = true := by
  simp [markCell, Cell.clickUpdate]

/-- After any positive-fuel cascade step the entry cell is clicked. -/
theorem cucF_succ_clicks (s : List ℕ) (f : ℕ) (g : Game) (idx : ℕ) :
    ((clickUpdateCellF s (f + 1) g idx).cells idx).isClicked = true := by
  simp only [clickUpdateCellF]
  set g1 := maybeSetBombs s g idx with hg1
  by_cases hcl : (g1.cells idx).isClicked = true
  · rw [if_pos hcl]
    exact hcl
  · rw [if_neg hcl]
    set g2 := if (g1.cells idx).isBomb = true then bombBatch g1 else g1 with hg2
    set g3 := markCell g2 idx with hg3
    have h3 : (g3.cells idx).isClicked = true := markCell_self_clicked g2 idx
    split_ifs with hsur
    · exact ((stepPres_cucFold s f _ g3).2.2.2.2.2 idx).2.2.2 h3
    · exact h3

/-! ### C5: reveal on an already-revealed or flagged cell -/

/-- C5 (amended): once the layout exists, revealing an already-revealed
cell changes nothing at all; but a flag does not protect a cell — reveal
on an unrevealed cell always marks it revealed, flagged or not. -/
theorem reveal_revealed_noop_flag_unprotected (g : Game) (s : List ℕ) (idx : ℕ)
    (h0 : g.nClickedCells ≠ 0) :
    ((g.cells idx).isClicked = true → g.clickUpdateCell s idx = g) ∧
    ((g.cells idx).isClicked = false →
      ((g.clickUpdateCell s idx).cells idx).isClicked = true) := by
  constructor
  · intro hcl
    show clickUpdateCellF s (g.nCells + 1) g idx = g
    simp only [clickUpdateCellF, maybeSetBombs]
    rw [if_neg h0, if_pos hcl]
  · intro hcl
    exact cucF_succ_clicks s g.nCells g idx

/-- Concrete instance of C5's amended statement: on a 2×2 board with the
bomb at 3 and cell 0 revealed, revealing cell 0 again is a no-op and
revealing the never-revealed cell 1 marks it revealed. -/
theorem reveal_revealed_noop_flag_unprotected_witness :
    ((((Game.mkInit 2 2 1).clickUpdateCell [2] 0).cells 0).isClicked = true ∧
      ((Game.mkInit 2 2 1).clickUpdateCell [2] 0).clickUpdateCell [2] 0 =
        (Game.mkInit 2 2 1).clickUpdateCell [2] 0) ∧
    ((((Game.mkInit 2 2 1).clickUpdateCell [2] 0).cells 1).isClicked = false ∧
      ((((Game.mkInit 2 2 1).clickUpdateCell [2] 0).clickUpdateCell [2] 1).cells 1).isClicked =
        true) :=
  ⟨⟨by decide,
    (reveal_revealed_noop_flag_unprotected ((Game.mkInit 2 2 1).clickUpdateCell [2] 0) [2] 0
      (by decide)).1 (by decide)⟩,
   ⟨by decide,
    (reveal_revealed_noop_flag_unprotected ((Game.mkInit 2 2 1).clickUpdateCell [2] 0) [2] 1
      (by decide)).2 (by decide)⟩⟩

/-- Counterexample to C5 as stated: in a reachable non-terminal generated
state, cell 1 is flagged and unrevealed, yet reveal on it is not a no-op —
it reveals the cell (the flag is never consulted). -/
theorem reveal_flagged_cell_not_noop :
    ((((Game.mkInit 2 2 1).clickUpdateCell [2] 0).flagUpdateAt 1).nClickedCells ≠ 0) ∧
    (((Game.mkInit 2 2 1).clickUpdateCell [2] 0).flagUpdateAt 1).won = false ∧
    (((Game.mkInit 2 2 1).clickUpdateCell [2] 0).flagUpdateAt 1).lost = false ∧
    (((((Game.mkInit 2 2 1).clickUpdateCell [2] 0).flagUpdateAt 1).cells 1).isFlagged = true) ∧
    (((((Game.mkInit 2 2 1).clickUpdateCell [2] 0).flagUpdateAt 1).cells 1).isClicked = false) ∧
    (((((((Game.mkInit 2 2 1).clickUpdateCell [2] 0).flagUpdateAt 1).clickUpdateCell [2] 1)).cells
        1).isClicked = true) := by
  decide

/-! ### C4: terminal states -/

/-- C4 (amended): the main loop refuses to run an iteration once the game
is won or lost, so the program never mutates a terminal state; the
mutation operations themselves carry no terminal-state guard. -/
theorem terminal_loop_iteration_noop (g : Game) (evs : List Ev)
    (h : g.won = true ∨ g.lost = true) : g.loopIter evs = g := by
  unfold Game.loopIter
  rcases h with h | h <;> simp [h]

/-- Concrete instance of C4's amended statement: a lost game is untouched
by a full loop iteration carrying a click and a flag event. -/
theorem terminal_loop_iteration_noop_witness :
    ((((Game.mkInit 2 2 1).clickUpdateCell [2] 0).clickUpdateCell [2] 3).lost = true) ∧
    (((Game.mkInit 2 2 1).clickUpdateCell [2] 0).clickUpdateCell [2] 3).loopIter
        [Ev.click [2] 1, Ev.flag 1] =
      ((Game.mkInit 2 2 1).clickUpdateCell [2] 0).clickUpdateCell [2] 3 :=
  ⟨by decide,
   terminal_loop_iteration_noop (((Game.mkInit 2 2 1).clickUpdateCell [2] 0).clickUpdateCell [2] 3)
     [Ev.click [2] 1, Ev.flag 1] (Or.inr (by decide))⟩

/-- Counterexample to C4 as stated: in a reachable lost state, calling
reveal on an unrevealed safe cell does mutate the state (and so does
flagging it) — the operations themselves never check `won`/`lost`. -/
theorem terminal_state_mutated_by_reveal :
    ((((Game.mkInit 2 2 1).clickUpdateCell [2] 0).clickUpdateCell [2] 3).lost = true) ∧
    (((((Game.mkInit 2 2 1).clickUpdateCell [2] 0).clickUpdateCell [2] 3).cells 1).isClicked =
      false) ∧
    ((((((Game.mkInit 2 2 1).clickUpdateCell [2] 0).clickUpdateCell [2] 3).clickUpdateCell
        [2] 1).cells 1).isClicked = true) ∧
    (((((Game.mkInit 2 2 1).clickUpdateCell [2] 0).clickUpdateCell [2] 3).cells 1).isFlagged =
      false) ∧
    ((((((Game.mkInit 2 2 1).clickUpdateCell [2] 0).clickUpdateCell [2] 3).flagUpdateAt
        1).cells 1).isFlagged = true) := by
  decide

/-! ### C7: the win flag -/

/-- C7 (amended): `click_update_cell` never touches `won`; the flag is set
by the main loop's re-check at the top of the next iteration, which from a
not-yet-won state sets `won` exactly when
`n_clicked_cells = width*height - n_bombs`. -/
theorem winCheck_decides_won (g : Game) (h : g.won = false) :
    ((g.winCheck).won = true ↔ g.nClickedCells = g.nCells - g.nBombs) ∧
    (∀ s idx, (g.clickUpdateCell s idx).won = g.won) := by
  constructor
  · unfold Game.winCheck
    split_ifs with hw
    · simp [hw]
    · simp [h, hw]
  · intro s idx
    exact (stepPres_clickUpdateCell g s idx).2.2.2.1

/-- Concrete instance of C7's amended statement, on the specification's
3×3 / 8-mine example after the single safe click. -/
theorem winCheck_decides_won_witness :
    ((((Game.mkInit 3 3 8).clickUpdateCell [0, 1, 2, 3, 4, 5, 6, 7] 4).winCheck).won = true ↔
      ((Game.mkInit 3 3 8).clickUpdateCell [0, 1, 2, 3, 4, 5, 6, 7] 4).nClickedCells =
        ((Game.mkInit 3 3 8).clickUpdateCell [0, 1, 2, 3, 4, 5, 6, 7] 4).nCells -
          ((Game.mkInit 3 3 8).clickUpdateCell [0, 1, 2, 3, 4, 5, 6, 7] 4).nBombs) ∧
    (∀ s idx,
      (((Game.mkInit 3 3 8).clickUpdateCell [0, 1, 2, 3, 4, 5, 6, 7] 4).clickUpdateCell s
          idx).won =
        ((Game.mkInit 3 3 8).clickUpdateCell [0, 1, 2, 3, 4, 5, 6, 7] 4).won) :=
  winCheck_decides_won ((Game.mkInit 3 3 8).clickUpdateCell [0, 1, 2, 3, 4, 5, 6, 7] 4)
    (by decide)

/-- Counterexample to C7 as stated: on the specification's own 3×3 /
8-mine example, the reveal that brings `n_clicked_cells` to
`width*height - n_bombs` completes with `won` still false (the loop sets
it only at the top of the next iteration). -/
theorem reveal_completes_without_won :
    (((Game.mkInit 3 3 8).clickUpdateCell [0, 1, 2, 3, 4, 5, 6, 7] 4).nClickedCells =
      ((Game.mkInit 3 3 8).clickUpdateCell [0, 1, 2, 3, 4, 5, 6, 7] 4).nCells -
        ((Game.mkInit 3 3 8).clickUpdateCell [0, 1, 2, 3, 4, 5, 6, 7] 4).nBombs) ∧
    ((Game.mkInit 3 3 8).clickUpdateCell [0, 1, 2, 3, 4, 5, 6, 7] 4).lost = false ∧
    ((Game.mkInit 3 3 8).clickUpdateCell [0, 1, 2, 3, 4, 5, 6, 7] 4).won = false := by
  decide

/-! ### C6: revealing a mine -/

/-- C6: after layout generation (so mine cells carry `surrounding = None`),
revealing an unrevealed mine sets `lost`, marks exactly the mine cells
(plus the already-revealed ones) revealed with no cascade, and leaves the
counter, the win flag, the flags and the counts untouched. -/
theorem reveal_bomb_discloses (g : Game) (s : List ℕ) (idx : ℕ)
    (h0 : g.nClickedCells ≠ 0) (hi : idx < g.nCells)
    (hb : (g.cells idx).isBomb = true) (hcl : (g.cells idx).isClicked = false)
    (hσ : (g.cells idx).surrounding = none) :
    (g.clickUpdateCell s idx).lost = true ∧
    (∀ j, ((g.clickUpdateCell s idx).cells j).isClicked = true ↔
      ((g.cells j).isClicked = true ∨ (j < g.nCells ∧ (g.cells j).isBomb = true))) ∧
    (g.clickUpdateCell s idx).nClickedCells = g.nClickedCells ∧
    (g.clickUpdateCell s idx).won = g.won ∧
    (∀ j, ((g.clickUpdateCell s idx).cells j).isFlagged = (g.cells j).isFlagged) ∧
    (∀ j, ((g.clickUpdateCell s idx).cells j).surrounding = (g.cells j).surrounding) := by
  have hmain : g.clickUpdateCell s idx = markCell (bombBatch g) idx := by
    show clickUpdateCellF s (g.nCells + 1) g idx = markCell (bombBatch g) idx
    simp only [clickUpdateCellF, maybeSetBombs]
    rw [if_neg h0, if_neg (by rw [hcl]; exact Bool.false_ne_true), if_pos hb,
      if_neg (?_ : ¬((markCell (bombBatch g) idx).cells idx).surrounding = some 0)]
    have h1 : ((markCell (bombBatch g) idx).cells idx).surrounding =
        ((bombBatch g).cells idx).surrounding := by
      simp [markCell, Cell.clickUpdate]
    have h2 : ((bombBatch g).cells idx).surrounding = (g.cells idx).surrounding := by
      simp only [bombBatch, Cell.clickUpdate]
      split_ifs <;> rfl
    rw [h1, h2, hσ]
    simp
  rw [hmain]
  have hbombcell : ∀ j, (bombBatch g).cells j =
      (if j < g.nCells ∧ (g.cells j).isBomb = true then ((g.cells j).clickUpdate).1
       else g.cells j) := fun j => rfl
  refine ⟨rfl, ?_, ?_, rfl, ?_, ?_⟩
  · intro j
    by_cases hj : j = idx
    · subst hj
      simp only [markCell_self_clicked]
      constructor
      · intro _
        exact Or.inr ⟨hi, hb⟩
      · intro _
        trivial
    · show (((markCell (bombBatch g) idx).cells j).isClicked = true) ↔ _
      have : ((markCell (bombBatch g) idx).cells j) = (bombBatch g).cells j := by
        simp [markCell, hj]
      rw [this, hbombcell j]
      split_ifs with h
      · simp [Cell.clickUpdate, h]
      · constructor
        · intro hc
          exact Or.inl hc
        · intro hc
          rcases hc with hc | hc
          · exact hc
          · exact absurd hc h
  · show (bombBatch g).nClickedCells +
        (if ((bombBatch g).cells idx).isBomb then 0 else 1) = g.nClickedCells
    have : ((bombBatch g).cells idx).isBomb = true := by
      rw [hbombcell idx, if_pos ⟨hi, hb⟩]
      simpa [Cell.clickUpdate] using hb
    rw [this]
    rfl
  · intro j
    have h1 : ((markCell (bombBatch g) idx).cells j).isFlagged =
        ((bombBatch g).cells j).isFlagged := by
      simp only [markCell, Cell.clickUpdate]
      split_ifs with h
      · subst h
        rfl
      · rfl
    rw [h1, hbombcell j]
    split_ifs <;> rfl
  · intro j
    have h1 : ((markCell (bombBatch g) idx).cells j).surrounding =
        ((bombBatch g).cells j).surrounding := by
      simp only [markCell, Cell.clickUpdate]
      split_ifs with h
      · subst h
        rfl
      · rfl
    rw [h1, hbombcell j]
    split_ifs <;> rfl

/-- Concrete instance of C6: on the reachable 2×2 board with the bomb at
index 3 and cell 0 revealed, revealing the bomb loses the game and
discloses the bomb, leaving everything else unchanged. -/
theorem reveal_bomb_discloses_witness :
    ((((Game.mkInit 2 2 1).clickUpdateCell [2] 0).clickUpdateCell [2] 3).lost = true ∧
    (∀ j, (((((Game.mkInit 2 2 1).clickUpdateCell [2] 0).clickUpdateCell [2] 3).cells
        j).isClicked = true) ↔
      (((((Game.mkInit 2 2 1).clickUpdateCell [2] 0).cells j).isClicked = true) ∨
        (j < ((Game.mkInit 2 2 1).clickUpdateCell [2] 0).nCells ∧
          ((((Game.mkInit 2 2 1).clickUpdateCell [2] 0).cells j).isBomb = true)))) ∧
    (((Game.mkInit 2 2 1).clickUpdateCell [2] 0).clickUpdateCell [2] 3).nClickedCells =
      ((Game.mkInit 2 2 1).clickUpdateCell [2] 0).nClickedCells ∧
    (((Game.mkInit 2 2 1).clickUpdateCell [2] 0).clickUpdateCell [2] 3).won =
      ((Game.mkInit 2 2 1).clickUpdateCell [2] 0).won ∧
    (∀ j, ((((Game.mkInit 2 2 1).clickUpdateCell [2] 0).clickUpdateCell [2] 3).cells
        j).isFlagged = (((Game.mkInit 2 2 1).clickUpdateCell [2] 0).cells j).isFlagged) ∧
    (∀ j, ((((Game.mkInit 2 2 1).clickUpdateCell [2] 0).clickUpdateCell [2] 3).cells
        j).surrounding = (((Game.mkInit 2 2 1).clickUpdateCell [2] 0).cells j).surrounding)) :=
  reveal_bomb_discloses ((Game.mkInit 2 2 1).clickUpdateCell [2] 0) [2] 3
    (by decide) (by decide) (by decide) (by decide) (by decide)

/-! ### Counting helpers -/

theorem countP_le_of_imp {α : Type} (l : List α) (p q : α → Bool)
    (h : ∀ a ∈ l, q a = true → p a = true) : l.countP q ≤ l.countP p := by
  induction l with
  | nil => simp
  | cons b l ih =>
    rw [List.countP_cons, List.countP_cons]
    have hl := ih fun a ha => h a (List.mem_cons_of_mem _ ha)
    by_cases hq : q b = true
    · rw [if_pos hq, if_pos (h b (List.mem_cons_self b l) hq)]
      omega
    · rw [if_neg hq]
      split_ifs <;> omega

theorem countP_lt_of_witness {α : Type} (l : List α) (p q : α → Bool)
    (h : ∀ a ∈ l, q a = true → p a = true) (a : α) (ha : a ∈ l)
    (hp : p a = true) (hq : q a = false) : l.countP q < l.countP p := by
  obtain ⟨s, t, rfl⟩ := List.append_of_mem ha
  rw [List.countP_append, List.countP_append, List.countP_cons, List.countP_cons]
  have hs := countP_le_of_imp s p q fun x hx hqx => h x (by simp [hx]) hqx
  have ht := countP_le_of_imp t p q fun x hx hqx => h x (by simp [hx]) hqx
  rw [if_pos hp, if_neg (by simp [hq])]
  omega

theorem unclickedCount_eq_countP (g : Game) :
    unclickedCount g = (List.range g.nCells).countP fun j => !(g.cells j).isClicked := by
  unfold unclickedCount
  rw [List.countP_eq_length_filter]

theorem unclickedCount_le_of_stepPres {g g' : Game} (h : StepPres g g') :
    unclickedCount g' ≤ unclickedCount g := by
  rw [unclickedCount_eq_countP, unclickedCount_eq_countP, h.nCells_eq]
  refine countP_le_of_imp _ _ _ fun a _ hqa => ?_
  cases hca : (g.cells a).isClicked
  · simp
  · have := (h.2.2.2.2.2 a).2.2.2 hca
    rw [this] at hqa
    simp at hqa

theorem unclickedCount_lt_of_clicks {g g' : Game} (h : StepPres g g') (idx : ℕ)
    (hi : idx < g.nCells) (hcl : (g.cells idx).isClicked = false)
    (hcl' : (g'.cells idx).isClicked = true) :
    unclickedCount g' < unclickedCount g := by
  rw [unclickedCount_eq_countP, unclickedCount_eq_countP, h.nCells_eq]
  refine countP_lt_of_witness _ _ _ (fun a _ hqa => ?_) idx (List.mem_range.mpr hi)
    (by simp [hcl]) (by simp [hcl'])
  cases hca : (g.cells a).isClicked
  · simp
  · have := (h.2.2.2.2.2 a).2.2.2 hca
    rw [this] at hqa
    simp at hqa

theorem unclickedCount_le_nCells (g : Game) : unclickedCount g ≤ g.nCells := by
  unfold unclickedCount
  calc ((List.range g.nCells).filter fun j => !(g.cells j).isClicked).length ≤
      (List.range g.nCells).length := List.length_filter_le _ _
    _ = g.nCells := List.length_range _

theorem coherent_of_stepPres {g g' : Game} (h : StepPres g g') (hc : Coherent g) :
    Coherent g' := by
  intro j hj
  rw [h.nCells_eq] at hj
  obtain ⟨hx, hy, _, _⟩ := h.2.2.2.2.2 j
  rw [hx, hy, h.2.1]
  exact hc j hj

/-! ### Linear indexing arithmetic and the cascade's neighbour list -/

theorem enc_lt {nx ny x y : ℕ} (hx : x < nx) (hy : y < ny) : ny * x + y < nx * ny := by
  have h1 : ny * (x + 1) ≤ ny * nx := Nat.mul_le_mul (le_refl ny) hx
  have h2 : ny * (x + 1) = ny * x + ny := by ring
  have h3 : ny * nx = nx * ny := Nat.mul_comm ny nx
  omega

theorem enc_div {ny x y : ℕ} (hy : y < ny) : (ny * x + y) / ny = x := by
  have h0 : 0 < ny := Nat.pos_of_ne_zero (by omega)
  rw [Nat.mul_add_div h0, Nat.div_eq_of_lt hy]
  omega

theorem enc_mod {ny x y : ℕ} (hy : y < ny) : (ny * x + y) % ny = y := by
  rw [Nat.mul_add_mod, Nat.mod_eq_of_lt hy]

/-- The cascade's neighbour list, characterised as the guarded union the
source's eight conditionals produce. -/
theorem targetsXY_mem_cases (nx ny x y k : ℕ) :
    k ∈ targetsXY nx ny x y ↔
      ((x ≠ 0 ∧ k = ny * x + y - ny) ∨
       (x ≠ 0 ∧ y ≠ 0 ∧ k = ny * x + y - ny - 1) ∨
       (x ≠ 0 ∧ y ≠ ny - 1 ∧ k = ny * x + y - ny + 1) ∨
       (x ≠ nx - 1 ∧ k = ny * x + y + ny) ∨
       (x ≠ nx - 1 ∧ y ≠ 0 ∧ k = ny * x + y + ny - 1) ∨
       (x ≠ nx - 1 ∧ y ≠ ny - 1 ∧ k = ny * x + y + ny + 1) ∨
       (y ≠ 0 ∧ k = ny * x + y - 1) ∨
       (y ≠ ny - 1 ∧ k = ny * x + y + 1)) := by
  by_cases h1 : x = 0 <;> by_cases h2 : y = 0 <;> by_cases h3 : y = ny - 1 <;>
    by_cases h4 : x = nx - 1 <;>
      simp [targetsXY, h1, h2, h3, h4, List.mem_append] <;> tauto

/-- The cascade's neighbour list contains exactly the geometric
8-neighbours of the cell at linear index `ny * x + y`. -/
theorem targetsXY_mem_iff_adj {nx ny x y : ℕ} (hx : x < nx) (hy : y < ny) (k : ℕ) :
    k ∈ targetsXY nx ny x y ↔ Adj nx ny (ny * x + y) k := by
  have h0 : 0 < ny := by omega
  have hdiv : (ny * x + y) / ny = x := enc_div hy
  have hmod : (ny * x + y) % ny = y := enc_mod hy
  have hilt : ny * x + y < nx * ny := enc_lt hx hy
  rw [targetsXY_mem_cases]
  unfold Adj
  constructor
  · intro hk
    rcases hk with ⟨hg, rfl⟩ | ⟨hg, hg2, rfl⟩ | ⟨hg, hg2, rfl⟩ | ⟨hg, rfl⟩ |
      ⟨hg, hg2, rfl⟩ | ⟨hg, hg2, rfl⟩ | ⟨hg, rfl⟩ | ⟨hg, rfl⟩
    · obtain ⟨x1, rfl⟩ : ∃ x1, x = x1 + 1 := ⟨x - 1, by omega⟩
      have hexp : ny * (x1 + 1) = ny * x1 + ny := by ring
      have he : ny * (x1 + 1) + y - ny = ny * x1 + y := by omega
      rw [he]
      have hd : (ny * x1 + y) / ny = x1 := enc_div hy
      have hm : (ny * x1 + y) % ny = y := enc_mod hy
      exact ⟨hilt, enc_lt (by omega) hy, by omega, by omega, by omega, by omega, by omega⟩
    · obtain ⟨x1, rfl⟩ : ∃ x1, x = x1 + 1 := ⟨x - 1, by omega⟩
      obtain ⟨y1, rfl⟩ : ∃ y1, y = y1 + 1 := ⟨y - 1, by omega⟩
      have hy1 : y1 < ny := by omega
      have hexp : ny * (x1 + 1) = ny * x1 + ny := by ring
      have he : ny * (x1 + 1) + (y1 + 1) - ny - 1 = ny * x1 + y1 := by omega
      rw [he]
      have hd : (ny * x1 + y1) / ny = x1 := enc_div hy1
      have hm : (ny * x1 + y1) % ny = y1 := enc_mod hy1
      exact ⟨hilt, enc_lt (by omega) hy1, by omega, by omega, by omega, by omega, by omega⟩
    · obtain ⟨x1, rfl⟩ : ∃ x1, x = x1 + 1 := ⟨x - 1, by omega⟩
      have hylt : y + 1 < ny := by omega
      have hexp : ny * (x1 + 1) = ny * x1 + ny := by ring
      have he : ny * (x1 + 1) + y - ny + 1 = ny * x1 + (y + 1) := by omega
      rw [he]
      have hd : (ny * x1 + (y + 1)) / ny = x1 := enc_div hylt
      have hm : (ny * x1 + (y + 1)) % ny = y + 1 := enc_mod hylt
      exact ⟨hilt, enc_lt (by omega) hylt, by omega, by omega, by omega, by omega, by omega⟩
    · have hxlt : x + 1 < nx := by omega
      have hexp : ny * (x + 1) = ny * x + ny := by ring
      have he : ny * x + y + ny = ny * (x + 1) + y := by omega
      rw [he]
      have hd : (ny * (x + 1) + y) / ny = x + 1 := enc_div hy
      have hm : (ny * (x + 1) + y) % ny = y := enc_mod hy
      exact ⟨hilt, enc_lt hxlt hy, by omega, by omega, by omega, by omega, by omega⟩
    · have hxlt : x + 1 < nx := by omega
      obtain ⟨y1, rfl⟩ : ∃ y1, y = y1 + 1 := ⟨y - 1, by omega⟩
      have hy1 : y1 < ny := by omega
      have hexp : ny * (x + 1) = ny * x + ny := by ring
      have he : ny * x + (y1 + 1) + ny - 1 = ny * (x + 1) + y1 := by omega
      rw [he]
      have hd : (ny * (x + 1) + y1) / ny = x + 1 := enc_div hy1
      have hm : (ny * (x + 1) + y1) % ny = y1 := enc_mod hy1
      exact ⟨hilt, enc_lt hxlt hy1, by omega, by omega, by omega, by omega, by omega⟩
    · have hxlt : x + 1 < nx := by omega
      have hylt : y + 1 < ny := by omega
      have hexp : ny * (x + 1) = ny * x + ny := by ring
      have he : ny * x + y + ny + 1 = ny * (x + 1) + (y + 1) := by omega
      rw [he]
      have hd : (ny * (x + 1) + (y + 1)) / ny = x + 1 := enc_div hylt
      have hm : (ny * (x + 1) + (y + 1)) % ny = y + 1 := enc_mod hylt
      exact ⟨hilt, enc_lt hxlt hylt, by omega, by omega, by omega, by omega, by omega⟩
    · obtain ⟨y1, rfl⟩ : ∃ y1, y = y1 + 1 := ⟨y - 1, by omega⟩
      have hy1 : y1 < ny := by omega
      have he : ny * x + (y1 + 1) - 1 = ny * x + y1 := by omega
      rw [he]
      have hd : (ny * x + y1) / ny = x := enc_div hy1
      have hm : (ny * x + y1) % ny = y1 := enc_mod hy1
      exact ⟨hilt, enc_lt hx hy1, by omega, by omega, by omega, by omega, by omega⟩
    · have hylt : y + 1 < ny := by omega
      have he : ny * x + y + 1 = ny * x + (y + 1) := by omega
      rw [he]
      have hd : (ny * x + (y + 1)) / ny = x := enc_div hylt
      have hm : (ny * x + (y + 1)) % ny = y + 1 := enc_mod hylt
      exact ⟨hilt, enc_lt hx hylt, by omega, by omega, by omega, by omega, by omega⟩
  · rintro ⟨hik, hk, hne, h1, h2, h3, h4⟩
    rw [hdiv] at h1 h2
    rw [hmod] at h3 h4
    obtain ⟨q, r, hq, hr⟩ : ∃ q r, k / ny = q ∧ k % ny = r := ⟨k / ny, k % ny, rfl, rfl⟩
    have hqr : ny * q + r = k := by rw [← hq, ← hr]; exact Nat.div_add_mod k ny
    have hrlt : r < ny := by rw [← hr]; exact Nat.mod_lt k h0
    rw [hq] at h1 h2
    rw [hr] at h3 h4
    have hxc : q + 1 = x ∨ q = x ∨ q = x + 1 := by omega
    have hyc : r + 1 = y ∨ r = y ∨ r = y + 1 := by omega
    have hcent : ¬(q = x ∧ r = y) := by
      rintro ⟨rfl, rfl⟩
      exact hne hqr
    rcases hxc with hxc | hxc | hxc <;> rcases hyc with hyc | hyc | hyc
    · have hxp : ny * x = ny * q + ny := by rw [← hxc]; ring
      exact Or.inr (Or.inl ⟨by omega, by omega, by omega⟩)
    · have hxp : ny * x = ny * q + ny := by rw [← hxc]; ring
      exact Or.inl ⟨by omega, by omega⟩
    · have hxp : ny * x = ny * q + ny := by rw [← hxc]; ring
      exact Or.inr (Or.inr (Or.inl ⟨by omega, by omega, by omega⟩))
    · have hxp : ny * q = ny * x := by rw [hxc]
      exact Or.inr (Or.inr (Or.inr (Or.inr (Or.inr (Or.inr (Or.inl ⟨by omega, by omega⟩))))))
    · exact absurd ⟨hxc, hyc⟩ hcent
    · have hxp : ny * q = ny * x := by rw [hxc]
      exact Or.inr (Or.inr (Or.inr (Or.inr (Or.inr (Or.inr (Or.inr ⟨by omega, by omega⟩))))))
    · have hxp : ny * q = ny * x + ny := by rw [hxc]; ring
      have hexp2 : ny * (x + 1) = ny * x + ny := by ring
      have hxg : x + 1 < nx := by
        have h6 : ny * (x + 1) < ny * nx := by
          have h7 : nx * ny = ny * nx := Nat.mul_comm nx ny
          omega
        exact lt_of_mul_lt_mul_left h6 (Nat.zero_le ny)
      exact Or.inr (Or.inr (Or.inr (Or.inr (Or.inl ⟨by omega, by omega, by omega⟩))))
    · have hxp : ny * q = ny * x + ny := by rw [hxc]; ring
      have hexp2 : ny * (x + 1) = ny * x + ny := by ring
      have hxg : x + 1 < nx := by
        have h6 : ny * (x + 1) < ny * nx := by
          have h7 : nx * ny = ny * nx := Nat.mul_comm nx ny
          omega
        exact lt_of_mul_lt_mul_left h6 (Nat.zero_le ny)
      exact Or.inr (Or.inr (Or.inr (Or.inl ⟨by omega, by omega⟩)))
    · have hxp : ny * q = ny * x + ny := by rw [hxc]; ring
      have hexp2 : ny * (x + 1) = ny * x + ny := by ring
      have hxg : x + 1 < nx := by
        have h6 : ny * (x + 1) < ny * nx := by
          have h7 : nx * ny = ny * nx := Nat.mul_comm nx ny
          omega
        exact lt_of_mul_lt_mul_left h6 (Nat.zero_le ny)
      exact Or.inr (Or.inr (Or.inr (Or.inr (Or.inr (Or.inl ⟨by omega, by omega, by omega⟩)))))

/-- On a coherent board the cascade recurses exactly into the geometric
neighbours of the clicked index. -/
theorem targets_of_coherent (g : Game) (hc : Coherent g) (idx : ℕ)
    (hi : idx < g.nCells) (k : ℕ) :
    (k ∈ targetsXY g.nCellsX g.nCellsY ((g.cells idx).x) ((g.cells idx).y)) ↔
      Adj g.nCellsX g.nCellsY idx k := by
  obtain ⟨hx, hy⟩ := hc idx hi
  have hn : g.nCells = g.nCellsX * g.nCellsY := rfl
  have h0 : 0 < g.nCellsY := by
    rcases Nat.eq_zero_or_pos g.nCellsY with h | h
    · exfalso
      have : g.nCellsX * g.nCellsY = 0 := by rw [h]; ring
      omega
    · exact h
  have hxlt : idx / g.nCellsY < g.nCellsX := (Nat.div_lt_iff_lt_mul h0).mpr (by omega)
  have hylt : idx % g.nCellsY < g.nCellsY := Nat.mod_lt idx h0
  rw [hx, hy, targetsXY_mem_iff_adj hxlt hylt, Nat.div_add_mod idx g.nCellsY]

theorem adj_lt_left {nx ny i k : ℕ} (h : Adj nx ny i k) : i < nx * ny := h.1

theorem adj_lt_right {nx ny i k : ℕ} (h : Adj nx ny i k) : k < nx * ny := h.2.1

/-! ### C9: termination and fuel stability -/

theorem cucF_fuel_stable (s : List ℕ) :
    ∀ f1 f2 : ℕ, ∀ (g : Game) (idx : ℕ), Coherent g → idx < g.nCells →
      unclickedCount g < f1 → unclickedCount g < f2 →
      clickUpdateCellF s f1 g idx = clickUpdateCellF s f2 g idx := by
  intro f1
  induction f1 with
  | zero => intro f2 g idx _ _ h1 _; omega
  | succ a ih =>
    intro f2 g idx hco hi h1 h2
    obtain ⟨b, rfl⟩ : ∃ b, f2 = b + 1 := ⟨f2 - 1, by omega⟩
    simp only [clickUpdateCellF]
    set g1 := maybeSetBombs s g idx with hg1
    by_cases hcl : (g1.cells idx).isClicked = true
    · rw [if_pos hcl, if_pos hcl]
    · rw [if_neg hcl, if_neg hcl]
      set g2 := if (g1.cells idx).isBomb = true then bombBatch g1 else g1 with hg2
      set g3 := markCell g2 idx with hg3
      have hp1 : StepPres g g1 := stepPres_maybeSetBombs s g idx
      have hp2 : StepPres g1 g2 := by
        rw [hg2]
        split_ifs
        · exact stepPres_bombBatch g1
        · exact StepPres.refl g1
      have hp3 : StepPres g g3 := (hp1.trans hp2).trans (stepPres_markCell g2 idx)
      by_cases hsur : ((g3.cells idx).surrounding = some 0)
      · rw [if_pos hsur, if_pos hsur]
        have hgcl : (g.cells idx).isClicked = false := by
          rw [← maybeSetBombs_isClicked s g idx idx]
          exact Bool.eq_false_iff.mpr hcl
        have hdec : unclickedCount g3 < unclickedCount g :=
          unclickedCount_lt_of_clicks hp3 idx hi hgcl (markCell_self_clicked g2 idx)
        have hco3 : Coherent g3 := coherent_of_stepPres hp3 hco
        have hi3 : idx < g3.nCells := by rw [hp3.nCells_eq]; exact hi
        have key : ∀ (ts : List ℕ) (h : Game), Coherent h →
            unclickedCount h < a → unclickedCount h < b →
            (∀ j ∈ ts, j < h.nCells) →
            ts.foldl (fun h j => clickUpdateCellF s a h j) h =
              ts.foldl (fun h j => clickUpdateCellF s b h j) h := by
          intro ts
          induction ts with
          | nil => intro h _ _ _ _; rfl
          | cons t ts iht =>
            intro h hcoh ha hb hts
            simp only [List.foldl_cons]
            rw [← ih b h t hcoh (hts t (List.mem_cons_self t ts)) ha hb]
            refine iht (clickUpdateCellF s a h t) ?_ ?_ ?_ ?_
            · exact coherent_of_stepPres (stepPres_cucF s a h t) hcoh
            · exact lt_of_le_of_lt (unclickedCount_le_of_stepPres (stepPres_cucF s a h t)) ha
            · exact lt_of_le_of_lt (unclickedCount_le_of_stepPres (stepPres_cucF s a h t)) hb
            · intro j hj
              rw [(stepPres_cucF s a h t).nCells_eq]
              exact hts j (List.mem_cons_of_mem _ hj)
        refine key _ g3 hco3 (by omega) (by omega) ?_
        intro j hj
        have hadj := (targets_of_coherent g3 hco3 idx hi3 j).mp hj
        have := adj_lt_right hadj
        unfold Game.nCells
        omega
      · rw [if_neg hsur, if_neg hsur]

/-- C9: the reveal cascade always terminates — its result is already stable
at fuel `width*height + 1`, because every processed cell is clicked at most
once and the number of unclicked cells (at most `width*height`) strictly
decreases at every productive step. -/
theorem reveal_cascade_terminates (g : Game) (s : List ℕ) (idx : ℕ)
    (hco : Coherent g) (hi : idx < g.nCells) (f : ℕ) (hf : g.nCells < f) :
    clickUpdateCellF s f g idx = g.clickUpdateCell s idx := by
  unfold Game.clickUpdateCell
  exact cucF_fuel_stable s f (g.nCells + 1) g idx hco hi
    (lt_of_le_of_lt (unclickedCount_le_nCells g) hf)
    (lt_of_le_of_lt (unclickedCount_le_nCells g) (Nat.lt_succ_self _))

/-- Concrete instance of C9: on a fresh 2×2 board any oversized fuel gives
the same cascade result as the canonical `width*height + 1`. -/
theorem reveal_cascade_terminates_witness :
    Coherent (Game.mkInit 2 2 0) ∧ 0 < (Game.mkInit 2 2 0).nCells ∧
    clickUpdateCellF [] 25 (Game.mkInit 2 2 0) 0 =
      (Game.mkInit 2 2 0).clickUpdateCell [] 0 :=
  ⟨by decide, by decide,
   reveal_cascade_terminates (Game.mkInit 2 2 0) [] 0 (by decide) (by decide) 25 (by decide)⟩

/-! ### C3: the neighbour counter -/

theorem initCellList_length (nx ny : ℕ) : (initCellList nx ny).length = nx * ny := by
  induction nx with
  | zero => simp [initCellList]
  | succ n ih =>
    unfold initCellList at ih ⊢
    rw [List.range_succ, List.flatMap_append, List.length_append, ih]
    have : (n + 1) * ny = n * ny + ny := by ring
    simp [this]

theorem initCellList_succ (n ny : ℕ) :
    initCellList (n + 1) ny =
      initCellList n ny ++ (List.range ny).map (Cell.mkInit n) := by
  unfold initCellList
  rw [List.range_succ, List.flatMap_append]
  simp

theorem initCellList_getD (nx ny x y : ℕ) (hx : x < nx) (hy : y < ny) (d : Cell) :
    (initCellList nx ny).getD (ny * x + y) d = Cell.mkInit x y := by
  induction nx with
  | zero => omega
  | succ n ih =>
    rw [initCellList_succ]
    by_cases hxn : x < n
    · have hlt : ny * x + y < (initCellList n ny).length := by
        rw [initCellList_length]
        exact enc_lt hxn hy
      rw [List.getD_eq_getElem?_getD, List.getElem?_append, if_pos hlt,
        ← List.getD_eq_getElem?_getD]
      exact ih hxn
    · have hxe : x = n := by omega
      subst hxe
      have hlen : (initCellList x ny).length = x * ny := initCellList_length x ny
      have hcomm : x * ny = ny * x := Nat.mul_comm x ny
      have hge : (initCellList x ny).length ≤ ny * x + y := by omega
      have hidx : ny * x + y - (initCellList x ny).length = y := by omega
      rw [List.getD_eq_getElem?_getD, List.getElem?_append_right hge, hidx,
        List.getElem?_map, List.getElem?_range hy]
      rfl

/-- The constructor's cell list places `Cell(x, y)` at linear index
`n_cells_y * x + y` (and the model's total cell map agrees everywhere). -/
theorem mkInit_cells (nx ny nb i : ℕ) (hi : i < nx * ny) :
    (Game.mkInit nx ny nb).cells i = Cell.mkInit (i / ny) (i % ny) := by
  have h0 : 0 < ny := by
    rcases Nat.eq_zero_or_pos ny with h | h
    · subst h; omega
    · exact h
  have hx : i / ny < nx := (Nat.div_lt_iff_lt_mul h0).mpr (by omega)
  have hy : i % ny < ny := Nat.mod_lt i h0
  show (initCellList nx ny).getD i _ = _
  conv in (initCellList nx ny).getD i _ => rw [← Nat.div_add_mod i ny]
  exact initCellList_getD nx ny (i / ny) (i % ny) hx hy _

theorem coherent_mkInit (nx ny nb : ℕ) : Coherent (Game.mkInit nx ny nb) := by
  intro j hj
  have hj2 : j < nx * ny := hj
  rw [mkInit_cells nx ny nb j hj2]
  exact ⟨rfl, rfl⟩

theorem filter_ite_singleton_length (B : List ℕ) (c : Prop) [Decidable c] (e : ℕ) :
    ((if c then [e] else []).filter fun k => decide (k ∈ B)).length =
      if c ∧ e ∈ B then 1 else 0 := by
  by_cases hc : c
  · rw [if_pos hc]
    by_cases he : e ∈ B
    · rw [if_pos ⟨hc, he⟩]
      simp [List.filter, he]
    · rw [if_neg (fun h => he h.2)]
      simp [List.filter, he]
  · rw [if_neg hc, if_neg (fun h => hc h.1)]
    simp

theorem bombInd_eq (nx ny : ℕ) (B : List ℕ) (X Y : ℤ) (c : Prop) [Decidable c] (e : ℕ)
    (hiff : (0 ≤ X ∧ X < (nx : ℤ) ∧ 0 ≤ Y ∧ Y < (ny : ℤ)) ↔ c)
    (henc : c → X.toNat * ny + Y.toNat = e) :
    bombInd nx ny B X Y = if c ∧ e ∈ B then 1 else 0 := by
  unfold bombInd
  by_cases hc : c
  · obtain ⟨r1, r2, r3, r4⟩ := hiff.mpr hc
    have he := henc hc
    by_cases hb : e ∈ B
    · rw [if_pos ⟨r1, r2, r3, r4, by rw [he]; exact hb⟩, if_pos ⟨hc, hb⟩]
    · rw [if_neg (fun h => hb (by rw [← he]; exact h.2.2.2.2)),
        if_neg (fun h => hb h.2)]
  · rw [if_neg (fun h => hc (hiff.mp ⟨h.1, h.2.1, h.2.2.1, h.2.2.2.1⟩)),
      if_neg (fun h => hc h.1)]

/-- Flattened form of the cascade's neighbour list, with all guards made
explicit per element. -/
theorem targetsXY_flat (nx ny x y : ℕ) :
    targetsXY nx ny x y =
      (if x ≠ 0 then [ny * x + y - ny] else []) ++
      (if x ≠ 0 ∧ y ≠ 0 then [ny * x + y - ny - 1] else []) ++
      (if x ≠ 0 ∧ y ≠ ny - 1 then [ny * x + y - ny + 1] else []) ++
      (if x ≠ nx - 1 then [ny * x + y + ny] else []) ++
      (if x ≠ nx - 1 ∧ y ≠ 0 then [ny * x + y + ny - 1] else []) ++
      (if x ≠ nx - 1 ∧ y ≠ ny - 1 then [ny * x + y + ny + 1] else []) ++
      (if y ≠ 0 then [ny * x + y - 1] else []) ++
      (if y ≠ ny - 1 then [ny * x + y + 1] else []) := by
  by_cases h1 : x ≠ 0 <;> by_cases h2 : y ≠ 0 <;> by_cases h3 : y ≠ ny - 1 <;>
    by_cases h4 : x ≠ nx - 1 <;> simp [targetsXY, h1, h2, h3, h4]

/-- The `convolve2d` entry at `(x, y)` equals the number of bombs among the
cascade's neighbour indices of that cell. -/
theorem convAt_eq_targets_count (nx ny : ℕ) (B : List ℕ) (x y : ℕ)
    (hx : x < nx) (hy : y < ny) :
    convAt nx ny B x y =
      ((targetsXY nx ny x y).filter fun k => decide (k ∈ B)).length := by
  have e1 : bombInd nx ny B ((x : ℤ) + -1) (y : ℤ) =
      if x ≠ 0 ∧ ny * x + y - ny ∈ B then 1 else 0 := by
    refine bombInd_eq nx ny B _ _ _ _ (by omega) ?_
    intro hg
    obtain ⟨x1, rfl⟩ : ∃ x1, x = x1 + 1 := ⟨x - 1, by omega⟩
    have h1 : (((x1 + 1 : ℕ) : ℤ) + -1).toNat = x1 := by omega
    have h2 : ((y : ℕ) : ℤ).toNat = y := by omega
    rw [h1, h2]
    have hexp : ny * (x1 + 1) = ny * x1 + ny := by ring
    have hcm : x1 * ny = ny * x1 := Nat.mul_comm x1 ny
    omega
  have e2 : bombInd nx ny B ((x : ℤ) + -1) ((y : ℤ) + -1) =
      if (x ≠ 0 ∧ y ≠ 0) ∧ ny * x + y - ny - 1 ∈ B then 1 else 0 := by
    refine bombInd_eq nx ny B _ _ _ _ (by omega) ?_
    rintro ⟨hg1, hg2⟩
    obtain ⟨x1, rfl⟩ : ∃ x1, x = x1 + 1 := ⟨x - 1, by omega⟩
    obtain ⟨y1, rfl⟩ : ∃ y1, y = y1 + 1 := ⟨y - 1, by omega⟩
    have h1 : (((x1 + 1 : ℕ) : ℤ) + -1).toNat = x1 := by omega
    have h2 : (((y1 + 1 : ℕ) : ℤ) + -1).toNat = y1 := by omega
    rw [h1, h2]
    have hexp : ny * (x1 + 1) = ny * x1 + ny := by ring
    have hcm : x1 * ny = ny * x1 := Nat.mul_comm x1 ny
    omega
  have e3 : bombInd nx ny B ((x : ℤ) + -1) ((y : ℤ) + 1) =
      if (x ≠ 0 ∧ y ≠ ny - 1) ∧ ny * x + y - ny + 1 ∈ B then 1 else 0 := by
    refine bombInd_eq nx ny B _ _ _ _ (by omega) ?_
    rintro ⟨hg1, hg2⟩
    obtain ⟨x1, rfl⟩ : ∃ x1, x = x1 + 1 := ⟨x - 1, by omega⟩
    have h1 : (((x1 + 1 : ℕ) : ℤ) + -1).toNat = x1 := by omega
    have h2 : (((y : ℕ) : ℤ) + 1).toNat = y + 1 := by omega
    rw [h1, h2]
    have hexp : ny * (x1 + 1) = ny * x1 + ny := by ring
    have hcm : x1 * ny = ny * x1 := Nat.mul_comm x1 ny
    omega
  have e4 : bombInd nx ny B ((x : ℤ) + 1) (y : ℤ) =
      if x ≠ nx - 1 ∧ ny * x + y + ny ∈ B then 1 else 0 := by
    refine bombInd_eq nx ny B _ _ _ _ (by omega) ?_
    intro hg
    have h1 : (((x : ℕ) : ℤ) + 1).toNat = x + 1 := by omega
    have h2 : ((y : ℕ) : ℤ).toNat = y := by omega
    rw [h1, h2]
    have hexp : ny * (x + 1) = ny * x + ny := by ring
    have hcm : (x + 1) * ny = ny * (x + 1) := Nat.mul_comm _ ny
    omega
  have e5 : bombInd nx ny B ((x : ℤ) + 1) ((y : ℤ) + -1) =
      if (x ≠ nx - 1 ∧ y ≠ 0) ∧ ny * x + y + ny - 1 ∈ B then 1 else 0 := by
    refine bombInd_eq nx ny B _ _ _ _ (by omega) ?_
    rintro ⟨hg1, hg2⟩
    obtain ⟨y1, rfl⟩ : ∃ y1, y = y1 + 1 := ⟨y - 1, by omega⟩
    have h1 : (((x : ℕ) : ℤ) + 1).toNat = x + 1 := by omega
    have h2 : (((y1 + 1 : ℕ) : ℤ) + -1).toNat = y1 := by omega
    rw [h1, h2]
    have hexp : ny * (x + 1) = ny * x + ny := by ring
    have hcm : (x + 1) * ny = ny * (x + 1) := Nat.mul_comm _ ny
    omega
  have e6 : bombInd nx ny B ((x : ℤ) + 1) ((y : ℤ) + 1) =
      if (x ≠ nx - 1 ∧ y ≠ ny - 1) ∧ ny * x + y + ny + 1 ∈ B then 1 else 0 := by
    refine bombInd_eq nx ny B _ _ _ _ (by omega) ?_
    rintro ⟨hg1, hg2⟩
    have h1 : (((x : ℕ) : ℤ) + 1).toNat = x + 1 := by omega
    have h2 : (((y : ℕ) : ℤ) + 1).toNat = y + 1 := by omega
    rw [h1, h2]
    have hexp : ny * (x + 1) = ny * x + ny := by ring
    have hcm : (x + 1) * ny = ny * (x + 1) := Nat.mul_comm _ ny
    omega
  have e7 : bombInd nx ny B (x : ℤ) ((y : ℤ) + -1) =
      if y ≠ 0 ∧ ny * x + y - 1 ∈ B then 1 else 0 := by
    refine bombInd_eq nx ny B _ _ _ _ (by omega) ?_
    intro hg
    obtain ⟨y1, rfl⟩ : ∃ y1, y = y1 + 1 := ⟨y - 1, by omega⟩
    have h1 : ((x : ℕ) : ℤ).toNat = x := by omega
    have h2 : (((y1 + 1 : ℕ) : ℤ) + -1).toNat = y1 := by omega
    rw [h1, h2]
    have hcm : x * ny = ny * x := Nat.mul_comm x ny
    omega
  have e8 : bombInd nx ny B (x : ℤ) ((y : ℤ) + 1) =
      if y ≠ ny - 1 ∧ ny * x + y + 1 ∈ B then 1 else 0 := by
    refine bombInd_eq nx ny B _ _ _ _ (by omega) ?_
    intro hg
    have h1 : ((x : ℕ) : ℤ).toNat = x := by omega
    have h2 : (((y : ℕ) : ℤ) + 1).toNat = y + 1 := by omega
    rw [h1, h2]
    have hcm : x * ny = ny * x := Nat.mul_comm x ny
    omega
  rw [targetsXY_flat]
  simp only [List.filter_append, List.length_append, filter_ite_singleton_length]
  unfold convAt kernelOffs
  simp only [List.map_cons, List.map_nil, List.sum_cons, List.sum_nil, add_zero]
  rw [e1, e2, e3, e4, e5, e6, e7, e8]
  ring

/-- C3: for every grid (including 1-wide and 1-tall), the convolution-based
neighbour counter gives, at flattened index `n_cells_y * x + y`, 0 on mines
and otherwise exactly the number of mines among the cell's valid geometric
8-neighbours, the cascade's neighbour list matching those geometric
neighbours under the same linear indexing, which is also the constructor's
cell placement. -/
theorem count_surrounding_bombs_spec (nx ny nb : ℕ) (B : List ℕ) (x y : ℕ)
    (hx : x < nx) (hy : y < ny) :
    (countSurroundingBombs nx ny B (ny * x + y) =
      if ny * x + y ∈ B then 0
      else ((targetsXY nx ny x y).filter fun k => decide (k ∈ B)).length) ∧
    (∀ k, k ∈ targetsXY nx ny x y ↔ Adj nx ny (ny * x + y) k) ∧
    (Game.mkInit nx ny nb).cells (ny * x + y) = Cell.mkInit x y := by
  refine ⟨?_, fun k => targetsXY_mem_iff_adj hx hy k, ?_⟩
  · unfold countSurroundingBombs
    rw [enc_div hy, enc_mod hy]
    split_ifs with hb
    · rfl
    · exact convAt_eq_targets_count nx ny B x y hx hy
  · rw [mkInit_cells nx ny nb _ (enc_lt hx hy), enc_div hy, enc_mod hy]

/-- Concrete instance of C3 on a degenerate 1-tall 4×1 grid with bombs at
0 and 3, checking the count at cell (1, 0) = index 1. -/
theorem count_surrounding_bombs_spec_witness :
    (countSurroundingBombs 4 1 [0, 3] (1 * 1 + 0) =
      if 1 * 1 + 0 ∈ [0, 3] then 0
      else ((targetsXY 4 1 1 0).filter fun k => decide (k ∈ [0, 3])).length) ∧
    (∀ k, k ∈ targetsXY 4 1 1 0 ↔ Adj 4 1 (1 * 1 + 0) k) ∧
    (Game.mkInit 4 1 2).cells (1 * 1 + 0) = Cell.mkInit 1 0 :=
  count_surrounding_bombs_spec 4 1 2 [0, 3] 1 0 (by decide) (by decide)

/-! ### C10: the click counter counts exactly the revealed safe cells -/

/-- The counter invariant: `n_clicked_cells` equals the number of revealed
non-mine cells, and before the first click nothing is revealed and nothing
is a mine. -/
def CounterInv (g : Game) : Prop :=
  g.nClickedCells = clickedSafeCount g ∧
  (g.nClickedCells = 0 → ∀ j, j < g.nCells →
    (g.cells j).isClicked = false ∧ (g.cells j).isBomb = false)

theorem clickedSafeCount_eq_countP (g : Game) :
    clickedSafeCount g = (List.range g.nCells).countP
      fun j => (g.cells j).isClicked && !(g.cells j).isBomb := by
  unfold clickedSafeCount
  rw [List.countP_eq_length_filter]

theorem countP_agree_except (l : List ℕ) (hnd : l.Nodup) (p q : ℕ → Bool) (a0 : ℕ)
    (ha : a0 ∈ l) (h : ∀ a ∈ l, a ≠ a0 → q a = p a) :
    l.countP q + (if p a0 then 1 else 0) = l.countP p + (if q a0 then 1 else 0) := by
  obtain ⟨s, t, rfl⟩ := List.append_of_mem ha
  rw [List.countP_append, List.countP_append, List.countP_cons, List.countP_cons]
  rw [List.nodup_append] at hnd
  obtain ⟨hs, ht0, hdisj⟩ := hnd
  have hat : a0 ∉ t := (List.nodup_cons.mp ht0).1
  have has : a0 ∉ s := fun hmem => hdisj hmem (List.mem_cons_self a0 t)
  have hsc : s.countP q = s.countP p :=
    List.countP_congr fun a hx => by
      rw [h a (List.mem_append_left _ hx) (fun he => has (he ▸ hx))]
  have htc : t.countP q = t.countP p :=
    List.countP_congr fun a hx => by
      rw [h a (List.mem_append_right _ (List.mem_cons_of_mem _ hx))
        (fun he => hat (he ▸ hx))]
  rw [hsc, htc]
  by_cases hp : p a0 <;> by_cases hq : q a0 <;> simp [hp, hq] <;> omega

theorem bombBatch_cells (g : Game) (j : ℕ) :
    (bombBatch g).cells j =
      if j < g.nCells ∧ (g.cells j).isBomb = true then ((g.cells j).clickUpdate).1
      else g.cells j := rfl

theorem markCell_cells (g : Game) (idx j : ℕ) :
    (markCell g idx).cells j =
      if j = idx then ((g.cells idx).clickUpdate).1 else g.cells j := rfl

theorem markCell_nClicked (g : Game) (idx : ℕ) :
    (markCell g idx).nClickedCells =
      g.nClickedCells + (if (g.cells idx).isBomb then 0 else 1) := rfl

theorem clickedSafeCount_markCell_safe (g : Game) (idx : ℕ) (hi : idx < g.nCells)
    (hcl : (g.cells idx).isClicked = false) (hb : (g.cells idx).isBomb = false) :
    clickedSafeCount (markCell g idx) = clickedSafeCount g + 1 := by
  have hold : ((g.cells idx).isClicked && !(g.cells idx).isBomb) = false := by
    rw [hcl]
    rfl
  have hnew : (((markCell g idx).cells idx).isClicked &&
      !((markCell g idx).cells idx).isBomb) = true := by
    rw [markCell_cells, if_pos rfl]
    simp [Cell.clickUpdate, hb]
  have hkey := countP_agree_except (List.range g.nCells) (List.nodup_range _)
    (fun j => (g.cells j).isClicked && !(g.cells j).isBomb)
    (fun j => ((markCell g idx).cells j).isClicked && !((markCell g idx).cells j).isBomb)
    idx (List.mem_range.mpr hi)
    (fun a _ hne => by
      show (((markCell g idx).cells a).isClicked && !((markCell g idx).cells a).isBomb) =
        ((g.cells a).isClicked && !(g.cells a).isBomb)
      rw [markCell_cells, if_neg hne])
  beta_reduce at hkey
  rw [hold, hnew] at hkey
  have e1 : (if (false : Bool) = true then (1 : ℕ) else 0) = 0 := rfl
  have e2 : (if (true : Bool) = true then (1 : ℕ) else 0) = 1 := rfl
  rw [e1, e2] at hkey
  rw [clickedSafeCount_eq_countP, clickedSafeCount_eq_countP]
  have hn : (markCell g idx).nCells = g.nCells := rfl
  rw [hn]
  omega

theorem clickedSafeCount_markCell_bomb (g : Game) (idx : ℕ) (hi : idx < g.nCells)
    (hb : (g.cells idx).isBomb = true) :
    clickedSafeCount (markCell g idx) = clickedSafeCount g := by
  have hold : ((g.cells idx).isClicked && !(g.cells idx).isBomb) = false := by
    rw [hb]
    simp
  have hnew : (((markCell g idx).cells idx).isClicked &&
      !((markCell g idx).cells idx).isBomb) = false := by
    rw [markCell_cells, if_pos rfl]
    simp [Cell.clickUpdate, hb]
  have hkey := countP_agree_except (List.range g.nCells) (List.nodup_range _)
    (fun j => (g.cells j).isClicked && !(g.cells j).isBomb)
    (fun j => ((markCell g idx).cells j).isClicked && !((markCell g idx).cells j).isBomb)
    idx (List.mem_range.mpr hi)
    (fun a _ hne => by
      show (((markCell g idx).cells a).isClicked && !((markCell g idx).cells a).isBomb) =
        ((g.cells a).isClicked && !(g.cells a).isBomb)
      rw [markCell_cells, if_neg hne])
  beta_reduce at hkey
  rw [hold, hnew] at hkey
  have e1 : (if (false : Bool) = true then (1 : ℕ) else 0) = 0 := rfl
  rw [e1] at hkey
  rw [clickedSafeCount_eq_countP, clickedSafeCount_eq_countP]
  have hn : (markCell g idx).nCells = g.nCells := rfl
  rw [hn]
  omega

theorem clickedSafeCount_bombBatch (g : Game) :
    clickedSafeCount (bombBatch g) = clickedSafeCount g := by
  rw [clickedSafeCount_eq_countP, clickedSafeCount_eq_countP]
  have hn : (bombBatch g).nCells = g.nCells := rfl
  rw [hn]
  apply List.countP_congr
  intro a _
  by_cases hc : a < g.nCells ∧ (g.cells a).isBomb = true
  · simp [bombBatch_cells, hc, Cell.clickUpdate, hc.2]
  · simp [bombBatch_cells, hc]

theorem shiftBomb_ne (c v : ℕ) : shiftBomb c v ≠ c := by
  unfold shiftBomb
  split_ifs <;> omega

theorem setBombs_cells_eq (g : Game) (s : List ℕ) (c i : ℕ) :
    (g.setBombs s c).cells i =
      if i < g.nCells then
        if i ∈ s.map (shiftBomb c) then { g.cells i with isBomb := true }
        else { g.cells i with
          surrounding := some (countSurroundingBombs g.nCellsX g.nCellsY
            (s.map (shiftBomb c)) i) }
      else g.cells i := rfl

/-- Core preservation: a `click_update_cell` call keeps the counter
invariant on a coherent board. -/
theorem cucF_counterInv (s : List ℕ) :
    ∀ (f : ℕ) (g : Game) (idx : ℕ), Coherent g → idx < g.nCells →
      ValidSample g.nCells g.nBombs s → CounterInv g →
      CounterInv (clickUpdateCellF s f g idx) := by
  intro f
  induction f with
  | zero => intro g idx _ _ _ hInv; exact hInv
  | succ f ih =>
    intro g idx hco hi hvs hInv
    simp only [clickUpdateCellF]
    have hfin : ∀ (h3 : Game), Coherent h3 → CounterInv h3 → h3.nCells = g.nCells →
        h3.nBombs = g.nBombs →
        CounterInv (if (h3.cells idx).surrounding = some 0 then
          (targetsXY h3.nCellsX h3.nCellsY ((h3.cells idx).x) ((h3.cells idx).y)).foldl
            (fun h j => clickUpdateCellF s f h j) h3 else h3) := by
      intro h3 hco3 hInv3 hnc3 hnb3
      split_ifs with hsur
      · have hi3 : idx < h3.nCells := by omega
        have hrange : ∀ j ∈ targetsXY h3.nCellsX h3.nCellsY ((h3.cells idx).x)
            ((h3.cells idx).y), j < h3.nCells := by
          intro j hj
          have hadj := (targets_of_coherent h3 hco3 idx hi3 j).mp hj
          have := adj_lt_right hadj
          unfold Game.nCells
          omega
        refine (foldl_rel
          (fun h => CounterInv h ∧ Coherent h ∧ h.nCells = g.nCells ∧ h.nBombs = g.nBombs)
          (fun _ _ => True) (fun _ => trivial) (fun _ _ _ _ _ => trivial) _ h3
          (fun h j hj hP => ⟨trivial, ?_, ?_, ?_, ?_⟩)
          ⟨hInv3, hco3, hnc3, hnb3⟩).2.1
        · refine ih h j hP.2.1 ?_ ?_ hP.1
          · have := hrange j hj
            omega
          · rw [hP.2.2.1, hP.2.2.2]
            exact hvs
        · exact coherent_of_stepPres (stepPres_cucF s f h j) hP.2.1
        · rw [(stepPres_cucF s f h j).nCells_eq]
          exact hP.2.2.1
        · rw [(stepPres_cucF s f h j).2.2.1]
          exact hP.2.2.2
      · exact hInv3
    by_cases h0 : g.nClickedCells = 0
    · obtain ⟨hcount, hzero⟩ := hInv
      have hz := hzero h0
      have hcell : g.nCellsY * ((g.cells idx).x) + (g.cells idx).y = idx := by
        obtain ⟨hx, hy⟩ := hco idx hi
        rw [hx, hy]
        exact Nat.div_add_mod idx g.nCellsY
      have hg1 : maybeSetBombs s g idx = g.setBombs s idx := by
        unfold maybeSetBombs
        rw [if_pos h0, hcell]
      rw [hg1]
      have hnotB : idx ∉ s.map (shiftBomb idx) := by
        intro hmem
        obtain ⟨v, _, hv⟩ := List.mem_map.mp hmem
        exact shiftBomb_ne idx v hv
      have hg1cell : (g.setBombs s idx).cells idx =
          { g.cells idx with
            surrounding := some (countSurroundingBombs g.nCellsX g.nCellsY
              (s.map (shiftBomb idx)) idx) } := by
        rw [setBombs_cells_eq, if_pos hi, if_neg hnotB]
      have hg1cl : ((g.setBombs s idx).cells idx).isClicked = false := by
        rw [hg1cell]
        exact (hz idx hi).1
      have hg1bm : ((g.setBombs s idx).cells idx).isBomb = false := by
        rw [hg1cell]
        exact (hz idx hi).2
      rw [if_neg (show ¬((g.setBombs s idx).cells idx).isClicked = true by
        rw [hg1cl]; exact Bool.false_ne_true)]
      have hbsel : (if ((g.setBombs s idx).cells idx).isBomb = true
          then bombBatch (g.setBombs s idx) else g.setBombs s idx) = g.setBombs s idx := by
        rw [hg1bm]
        simp
      rw [hbsel]
      have hcount1 : clickedSafeCount (g.setBombs s idx) = 0 := by
        rw [clickedSafeCount_eq_countP]
        refine List.countP_eq_zero.mpr fun a ha => ?_
        have ha2 : a < g.nCells := List.mem_range.mp ha
        have : ((g.setBombs s idx).cells a).isClicked = false := by
          rw [setBombs_isClicked]
          exact (hz a ha2).1
        simp [this]
      have hco1 : Coherent (g.setBombs s idx) :=
        coherent_of_stepPres (stepPres_setBombs g s idx) hco
      have hco3 : Coherent (markCell (g.setBombs s idx) idx) :=
        coherent_of_stepPres (stepPres_markCell _ idx) hco1
      have hcnt3 : clickedSafeCount (markCell (g.setBombs s idx) idx) = 1 := by
        rw [clickedSafeCount_markCell_safe (g.setBombs s idx) idx hi hg1cl hg1bm, hcount1]
      have hn3 : (markCell (g.setBombs s idx) idx).nClickedCells = 1 := by
        rw [markCell_nClicked, hg1bm]
        simp [Game.setBombs, h0]
      refine hfin (markCell (g.setBombs s idx) idx) hco3 ⟨by rw [hn3, hcnt3], ?_⟩ rfl rfl
      intro habs
      rw [hn3] at habs
      omega
    · have hg1 : maybeSetBombs s g idx = g := by
        unfold maybeSetBombs
        rw [if_neg h0]
      rw [hg1]
      by_cases hcl : (g.cells idx).isClicked = true
      · rw [if_pos hcl]
        exact hInv
      · rw [if_neg hcl]
        have hclf : (g.cells idx).isClicked = false := Bool.eq_false_iff.mpr hcl
        obtain ⟨hcount, _⟩ := hInv
        by_cases hbm : (g.cells idx).isBomb = true
        · rw [if_pos hbm]
          have hb2 : ((bombBatch g).cells idx).isBomb = true := by
            rw [bombBatch_cells, if_pos ⟨hi, hbm⟩]
            simpa [Cell.clickUpdate] using hbm
          have hcnt3 : clickedSafeCount (markCell (bombBatch g) idx) =
              clickedSafeCount g := by
            rw [clickedSafeCount_markCell_bomb (bombBatch g) idx hi hb2,
              clickedSafeCount_bombBatch]
          have hn3 : (markCell (bombBatch g) idx).nClickedCells = g.nClickedCells := by
            rw [markCell_nClicked, hb2]
            rfl
          have hco3 : Coherent (markCell (bombBatch g) idx) :=
            coherent_of_stepPres
              ((stepPres_bombBatch g).trans (stepPres_markCell _ idx)) hco
          refine hfin (markCell (bombBatch g) idx) hco3
            ⟨by rw [hn3, hcnt3]; exact hcount, ?_⟩ rfl rfl
          intro habs
          rw [hn3] at habs
          exact absurd habs h0
        · rw [if_neg hbm]
          have hbf : (g.cells idx).isBomb = false := Bool.eq_false_iff.mpr hbm
          have hcnt3 : clickedSafeCount (markCell g idx) = clickedSafeCount g + 1 :=
            clickedSafeCount_markCell_safe g idx hi hclf hbf
          have hn3 : (markCell g idx).nClickedCells = g.nClickedCells + 1 := by
            rw [markCell_nClicked, hbf]
            rfl
          have hco3 : Coherent (markCell g idx) :=
            coherent_of_stepPres (stepPres_markCell g idx) hco
          refine hfin (markCell g idx) hco3
            ⟨by rw [hn3, hcnt3, hcount], ?_⟩ rfl rfl
          intro habs
          rw [hn3] at habs
          omega

theorem flagUpdate_keeps_fields (c : Cell) :
    (c.flagUpdate).x = c.x ∧ (c.flagUpdate).y = c.y ∧
    (c.flagUpdate).isClicked = c.isClicked ∧ (c.flagUpdate).isBomb = c.isBomb := by
  unfold Cell.flagUpdate
  split_ifs <;> exact ⟨rfl, rfl, rfl, rfl⟩

theorem coherent_flagUpdateAt (g : Game) (idx : ℕ) (hc : Coherent g) :
    Coherent (g.flagUpdateAt idx) := by
  intro j hj
  have hj2 : j < g.nCells := hj
  obtain ⟨hx, hy⟩ := hc j hj2
  unfold Game.flagUpdateAt
  simp only
  split_ifs with he
  · exact ⟨((flagUpdate_keeps_fields _).1).trans hx,
      ((flagUpdate_keeps_fields _).2.1).trans hy⟩
  · exact ⟨hx, hy⟩

theorem counterInv_flagUpdateAt (g : Game) (idx : ℕ) (h : CounterInv g) :
    CounterInv (g.flagUpdateAt idx) := by
  obtain ⟨hcount, hzero⟩ := h
  constructor
  · show g.nClickedCells = _
    rw [hcount, clickedSafeCount_eq_countP, clickedSafeCount_eq_countP]
    have hn : (g.flagUpdateAt idx).nCells = g.nCells := rfl
    rw [hn]
    refine List.countP_congr fun a _ => ?_
    show ((g.cells a).isClicked && !(g.cells a).isBomb) = true ↔ _
    unfold Game.flagUpdateAt
    simp only
    split_ifs with he
    · rw [(flagUpdate_keeps_fields _).2.2.1, (flagUpdate_keeps_fields _).2.2.2]
    · exact Iff.rfl
  · intro h0 j hj
    have hj2 : j < g.nCells := hj
    have := hzero h0 j hj2
    unfold Game.flagUpdateAt
    simp only
    split_ifs with he
    · rw [(flagUpdate_keeps_fields _).2.2.1, (flagUpdate_keeps_fields _).2.2.2]
      exact this
    · exact this

theorem winCheck_cells (g : Game) : (g.winCheck).cells = g.cells := by
  unfold Game.winCheck
  split_ifs <;> rfl

theorem winCheck_nClicked (g : Game) :
    (g.winCheck).nClickedCells = g.nClickedCells := by
  unfold Game.winCheck
  split_ifs <;> rfl

theorem winCheck_dims (g : Game) :
    (g.winCheck).nCellsX = g.nCellsX ∧ (g.winCheck).nCellsY = g.nCellsY := by
  unfold Game.winCheck
  split_ifs <;> exact ⟨rfl, rfl⟩

theorem coherent_winCheck (g : Game) (hc : Coherent g) : Coherent (g.winCheck) := by
  intro j hj
  have hj2 : j < g.nCells := by
    unfold Game.nCells at hj ⊢
    rw [(winCheck_dims g).1, (winCheck_dims g).2] at hj
    exact hj
  rw [winCheck_cells, (winCheck_dims g).2]
  exact hc j hj2

theorem counterInv_winCheck (g : Game) (h : CounterInv g) : CounterInv (g.winCheck) := by
  obtain ⟨hcount, hzero⟩ := h
  have hcells := winCheck_cells g
  have hnc := winCheck_nClicked g
  have hn : (g.winCheck).nCells = g.nCells := by
    unfold Game.nCells
    rw [(winCheck_dims g).1, (winCheck_dims g).2]
  constructor
  · rw [hnc, hcount, clickedSafeCount_eq_countP, clickedSafeCount_eq_countP, hn, hcells]
  · intro h0 j hj
    rw [hn] at hj
    rw [hcells]
    exact hzero (by rw [← hnc]; exact h0) j hj

theorem counterInv_mkInit (nx ny nb : ℕ) : CounterInv (Game.mkInit nx ny nb) := by
  constructor
  · show 0 = _
    rw [clickedSafeCount_eq_countP]
    symm
    refine List.countP_eq_zero.mpr fun a ha => ?_
    have ha2 : a < nx * ny := List.mem_range.mp ha
    rw [mkInit_cells nx ny nb a ha2]
    simp [Cell.mkInit]
  · intro _ j hj
    have hj2 : j < nx * ny := hj
    rw [mkInit_cells nx ny nb j hj2]
    exact ⟨rfl, rfl⟩

theorem reachable_coherent_counterInv (g : Game) (h : Reachable g) :
    Coherent g ∧ CounterInv g := by
  induction h with
  | init nx ny nb => exact ⟨coherent_mkInit nx ny nb, counterInv_mkInit nx ny nb⟩
  | check _ ih => exact ⟨coherent_winCheck _ ih.1, counterInv_winCheck _ ih.2⟩
  | click sample idx hs hi _ ih =>
    exact ⟨coherent_of_stepPres (stepPres_clickUpdateCell _ sample idx) ih.1,
      cucF_counterInv sample _ _ idx ih.1 hi hs ih.2⟩
  | flag idx _ ih =>
    exact ⟨coherent_flagUpdateAt _ idx ih.1, counterInv_flagUpdateAt _ idx ih.2⟩

/-- C10: in every reachable game state the click counter equals the number
of revealed non-mine cells — revealing mines (including the full mine
disclosure on loss) never increments it, so the win comparison is
unaffected by mine reveals. -/
theorem counter_counts_revealed_safe_cells (g : Game) (h : Reachable g) :
    g.nClickedCells = clickedSafeCount g :=
  (reachable_coherent_counterInv g h).2.1

/-- Concrete instance of C10 on a freshly constructed board. -/
theorem counter_counts_revealed_safe_cells_witness :
    (Game.mkInit 2 2 1).nClickedCells = clickedSafeCount (Game.mkInit 2 2 1) :=
  counter_counts_revealed_safe_cells (Game.mkInit 2 2 1) (Reachable.init 2 2 1)

/-! ### C1: the cascade reveals exactly the zero-closure -/

theorem clickUpdate_keeps_fields (c : Cell) :
    ((c.clickUpdate).1).isBomb = c.isBomb ∧
    ((c.clickUpdate).1).surrounding = c.surrounding := ⟨rfl, rfl⟩

theorem markCell_board (g : Game) (idx j : ℕ) :
    ((markCell g idx).cells j).isBomb = (g.cells j).isBomb ∧
    ((markCell g idx).cells j).surrounding = (g.cells j).surrounding := by
  rw [markCell_cells]
  split_ifs with h
  · subst h
    exact ⟨rfl, rfl⟩
  · exact ⟨rfl, rfl⟩

theorem bombBatch_board (g : Game) (j : ℕ) :
    ((bombBatch g).cells j).isBomb = (g.cells j).isBomb ∧
    ((bombBatch g).cells j).surrounding = (g.cells j).surrounding := by
  rw [bombBatch_cells]
  split_ifs <;> exact ⟨rfl, rfl⟩

/-- Once bombs exist (`n_clicked_cells ≠ 0`), a cascade never changes any
cell's bomb flag or stored count. -/
theorem boardPres_cucF (s : List ℕ) :
    ∀ (f : ℕ) (g : Game) (i : ℕ), g.nClickedCells ≠ 0 →
      ∀ j, ((clickUpdateCellF s f g i).cells j).isBomb = (g.cells j).isBomb ∧
        ((clickUpdateCellF s f g i).cells j).surrounding = (g.cells j).surrounding := by
  intro f
  induction f with
  | zero => intro g i _ j; exact ⟨rfl, rfl⟩
  | succ f ih =>
    intro g i h0 j
    simp only [clickUpdateCellF]
    have hg1 : maybeSetBombs s g i = g := by
      unfold maybeSetBombs
      rw [if_neg h0]
    rw [hg1]
    by_cases hcl : (g.cells i).isClicked = true
    · rw [if_pos hcl]
      exact ⟨rfl, rfl⟩
    · rw [if_neg hcl]
      set g2 := if (g.cells i).isBomb = true then bombBatch g else g with hg2
      have hb2 : ∀ k, (g2.cells k).isBomb = (g.cells k).isBomb ∧
          (g2.cells k).surrounding = (g.cells k).surrounding := by
        intro k
        rw [hg2]
        split_ifs
        · exact bombBatch_board g k
        · exact ⟨rfl, rfl⟩
      set g3 := markCell g2 i with hg3
      have hb3 : ∀ k, (g3.cells k).isBomb = (g.cells k).isBomb ∧
          (g3.cells k).surrounding = (g.cells k).surrounding := by
        intro k
        rw [hg3]
        exact ⟨((markCell_board g2 i k).1).trans (hb2 k).1,
          ((markCell_board g2 i k).2).trans (hb2 k).2⟩
      have hn3 : g3.nClickedCells ≠ 0 := by
        have h1 : g.nClickedCells ≤ g2.nClickedCells := by
          rw [hg2]; split_ifs
          · exact le_of_eq rfl
          · exact le_refl _
        have h2 : g2.nClickedCells ≤ g3.nClickedCells := by
          rw [hg3, markCell_nClicked]
          exact Nat.le_add_right _ _
        omega
      split_ifs with hsur
      · have key := foldl_rel (fun h => h.nClickedCells ≠ 0)
          (fun a b => ∀ k, (b.cells k).isBomb = (a.cells k).isBomb ∧
            (b.cells k).surrounding = (a.cells k).surrounding)
          (fun _ _ => ⟨rfl, rfl⟩)
          (fun a b c hab hbc k => ⟨(hbc k).1.trans (hab k).1, (hbc k).2.trans (hab k).2⟩)
          (targetsXY g3.nCellsX g3.nCellsY ((g3.cells i).x) ((g3.cells i).y)) g3
          (fun h t _ hP => ⟨ih h t hP, by
            have := (stepPres_cucF s f h t).2.2.2.2.1
            omega⟩) hn3
        exact ⟨((key.1 j).1).trans (hb3 j).1, ((key.1 j).2).trans (hb3 j).2⟩
      · exact hb3 j

theorem adjBombCount_zero (g : Game) (j : ℕ) (h : adjBombCount g j = 0) (k : ℕ)
    (hadj : Adj g.nCellsX g.nCellsY j k) : (g.cells k).isBomb = false := by
  cases hB : (g.cells k).isBomb
  · rfl
  · exfalso
    have hk : k < g.nCells := by
      have := adj_lt_right hadj
      unfold Game.nCells
      omega
    have hmem : k ∈ (List.range g.nCells).filter fun k2 =>
        decide (Adj g.nCellsX g.nCellsY j k2) && (g.cells k2).isBomb :=
      List.mem_filter.mpr ⟨List.mem_range.mpr hk, by simp [hadj, hB]⟩
    unfold adjBombCount at h
    rw [List.length_eq_zero] at h
    rw [h] at hmem
    cases hmem

theorem zreach_lt (g : Game) (st j : ℕ) (hs : st < g.nCells) :
    ZReach g st j → j < g.nCells := by
  intro h
  induction h with
  | start => exact hs
  | next h1 h2 h3 =>
    have := adj_lt_right h3
    unfold Game.nCells
    omega

/-- On a generated board, every cell of the zero-closure of a safe start
cell is in range and safe. -/
theorem generated_zreach (g : Game) (start : ℕ) (hgen : Generated g)
    (hs : start < g.nCells) (hsb : (g.cells start).isBomb = false) :
    ∀ j, ZReach g start j → j < g.nCells ∧ (g.cells j).isBomb = false := by
  intro j hj
  induction hj with
  | start => exact ⟨hs, hsb⟩
  | next h1 h2 h3 ih =>
    obtain ⟨hjlt, hjb⟩ := ih
    have hσc := (hgen _ hjlt).2 hjb
    rw [h2] at hσc
    have hcnt : adjBombCount g _ = 0 := (Option.some.inj hσc).symm
    refine ⟨?_, adjBombCount_zero g _ hcnt _ h3⟩
    have := adj_lt_right h3
    unfold Game.nCells
    omega

/-- The state facts the cascade maintains relative to its entry board:
bombs exist, dimensions and per-cell bomb flags and counts match, and
the coordinates stay coherent. -/
def CascadeCtx (g0 h : Game) : Prop :=
  h.nClickedCells ≠ 0 ∧ h.nCellsX = g0.nCellsX ∧ h.nCellsY = g0.nCellsY ∧
  Coherent h ∧
  (∀ j, (h.cells j).isBomb = (g0.cells j).isBomb) ∧
  (∀ j, (h.cells j).surrounding = (g0.cells j).surrounding)

theorem cascadeCtx_cucF (s : List ℕ) (f : ℕ) (g0 h : Game) (i : ℕ)
    (hc : CascadeCtx g0 h) : CascadeCtx g0 (clickUpdateCellF s f h i) := by
  obtain ⟨h0, hx, hy, hco, hb, hσ⟩ := hc
  have hsp := stepPres_cucF s f h i
  have hbp := boardPres_cucF s f h i h0
  refine ⟨?_, hsp.1.trans hx, hsp.2.1.trans hy, coherent_of_stepPres hsp hco,
    fun j => ((hbp j).1).trans (hb j), fun j => ((hbp j).2).trans (hσ j)⟩
  have := hsp.2.2.2.2.1
  omega

theorem cascadeCtx_markCell (g0 h : Game) (i : ℕ) (hc : CascadeCtx g0 h) :
    CascadeCtx g0 (markCell h i) := by
  obtain ⟨h0, hx, hy, hco, hb, hσ⟩ := hc
  refine ⟨?_, hx, hy, coherent_of_stepPres (stepPres_markCell h i) hco,
    fun j => ((markCell_board h i j).1).trans (hb j),
    fun j => ((markCell_board h i j).2).trans (hσ j)⟩
  rw [markCell_nClicked]
  omega

/-- Soundness of the cascade: starting anywhere inside the zero-closure of
`start`, it only ever clicks cells of that closure (or cells already
clicked). -/
theorem cucF_sound (s : List ℕ) (g0 : Game) (start : ℕ)
    (hgen : Generated g0) (hs : start < g0.nCells)
    (hsb : (g0.cells start).isBomb = false) :
    ∀ (f : ℕ) (h : Game) (i : ℕ), CascadeCtx g0 h → ZReach g0 start i →
      ∀ j, ((clickUpdateCellF s f h i).cells j).isClicked = true →
        (h.cells j).isClicked = true ∨ ZReach g0 start j := by
  intro f
  induction f with
  | zero => intro h i _ _ j hj; exact Or.inl hj
  | succ f ih =>
    intro h i hctx hzi j hj
    obtain ⟨h0, hx, hy, hco, hbeq, hσeq⟩ := hctx
    have hctxx : CascadeCtx g0 h := ⟨h0, hx, hy, hco, hbeq, hσeq⟩
    have hiprop := generated_zreach g0 start hgen hs hsb i hzi
    have hib : (h.cells i).isBomb = false := by rw [hbeq i]; exact hiprop.2
    have hilt : i < h.nCells := by
      have hnc : h.nCells = g0.nCells := by unfold Game.nCells; rw [hx, hy]
      omega
    simp only [clickUpdateCellF] at hj
    have hg1 : maybeSetBombs s h i = h := by
      unfold maybeSetBombs
      rw [if_neg h0]
    rw [hg1] at hj
    by_cases hcl : (h.cells i).isClicked = true
    · rw [if_pos hcl] at hj
      exact Or.inl hj
    · rw [if_neg hcl] at hj
      rw [if_neg (show ¬(h.cells i).isBomb = true by
        rw [hib]; exact Bool.false_ne_true)] at hj
      set g3 := markCell h i with hg3
      have hctx3 : CascadeCtx g0 g3 := cascadeCtx_markCell g0 h i hctxx
      have hmark : ∀ k, (g3.cells k).isClicked = true →
          (h.cells k).isClicked = true ∨ k = i := by
        intro k hk
        rw [hg3, markCell_cells] at hk
        by_cases he : k = i
        · exact Or.inr he
        · rw [if_neg he] at hk
          exact Or.inl hk
      by_cases hsur : (g3.cells i).surrounding = some 0
      · rw [if_pos hsur] at hj
        have hσ0 : (g0.cells i).surrounding = some 0 := by
          rw [hg3, (markCell_board h i i).2] at hsur
          rw [← hσeq i]
          exact hsur
        have hts : ∀ k ∈ targetsXY g3.nCellsX g3.nCellsY ((g3.cells i).x)
            ((g3.cells i).y), ZReach g0 start k := by
          intro k hk
          have hco3 : Coherent g3 := hctx3.2.2.2.1
          have hi3 : i < g3.nCells := hilt
          have hadj := (targets_of_coherent g3 hco3 i hi3 k).mp hk
          rw [hctx3.2.1, hctx3.2.2.1] at hadj
          exact ZReach.next hzi hσ0 hadj
        have key : ∀ (ts : List ℕ) (h2 : Game), CascadeCtx g0 h2 →
            (∀ k ∈ ts, ZReach g0 start k) →
            ∀ j2, ((ts.foldl (fun a b => clickUpdateCellF s f a b) h2).cells j2).isClicked
                = true →
              (h2.cells j2).isClicked = true ∨ ZReach g0 start j2 := by
          intro ts
          induction ts with
          | nil => intro h2 _ _ j2 hj2; exact Or.inl hj2
          | cons t ts iht =>
            intro h2 hctx2 hzs j2 hj2
            simp only [List.foldl_cons] at hj2
            have step := iht (clickUpdateCellF s f h2 t)
              (cascadeCtx_cucF s f g0 h2 t hctx2)
              (fun k hk => hzs k (List.mem_cons_of_mem _ hk)) j2 hj2
            rcases step with hcase | hcase
            · exact ih h2 t hctx2 (hzs t (List.mem_cons_self t ts)) j2 hcase
            · exact Or.inr hcase
        rcases key _ g3 hctx3 hts j hj with hc3 | hz
        · rcases hmark j hc3 with hh | rfl
          · exact Or.inl hh
          · exact Or.inr hzi
        · exact Or.inr hz
      · rw [if_neg hsur] at hj
        rcases hmark j hj with hh | rfl
        · exact Or.inl hh
        · exact Or.inr hzi

/-- Completeness of the cascade: the entry cell ends up clicked, and every
newly clicked zero-count cell has all its geometric neighbours clicked in
the final state. -/
theorem cucF_complete (s : List ℕ) (g0 : Game) (hgen : Generated g0) :
    ∀ (f : ℕ) (h : Game) (i : ℕ), CascadeCtx g0 h → unclickedCount h < f →
      i < h.nCells → (g0.cells i).isBomb = false →
      (((clickUpdateCellF s f h i).cells i).isClicked = true) ∧
      (∀ j, ((clickUpdateCellF s f h i).cells j).isClicked = true →
        (h.cells j).isClicked = false →
        (g0.cells j).surrounding = some 0 →
        ∀ k, Adj g0.nCellsX g0.nCellsY j k →
          ((clickUpdateCellF s f h i).cells k).isClicked = true) := by
  intro f
  induction f with
  | zero => intro h i _ hf _ _; omega
  | succ f ih =>
    intro h i hctx hf hilt hib0
    obtain ⟨h0, hx, hy, hco, hbeq, hσeq⟩ := hctx
    have hctxx : CascadeCtx g0 h := ⟨h0, hx, hy, hco, hbeq, hσeq⟩
    simp only [clickUpdateCellF]
    have hg1 : maybeSetBombs s h i = h := by
      unfold maybeSetBombs
      rw [if_neg h0]
    rw [hg1]
    by_cases hcl : (h.cells i).isClicked = true
    · rw [if_pos hcl]
      refine ⟨hcl, fun j hj hnj _ _ => ?_⟩
      rw [hnj] at hj
      exact absurd hj Bool.false_ne_true
    · rw [if_neg hcl]
      have hib : (h.cells i).isBomb = false := by rw [hbeq i]; exact hib0
      rw [if_neg (show ¬(h.cells i).isBomb = true by
        rw [hib]; exact Bool.false_ne_true)]
      set g3 := markCell h i with hg3
      have hctx3 : CascadeCtx g0 g3 := cascadeCtx_markCell g0 h i hctxx
      have hclf : (h.cells i).isClicked = false := Bool.eq_false_iff.mpr hcl
      have hdec : unclickedCount g3 < unclickedCount h :=
        unclickedCount_lt_of_clicks (stepPres_markCell h i) i hilt hclf
          (markCell_self_clicked h i)
      have hmark : ∀ k, (g3.cells k).isClicked = true →
          (h.cells k).isClicked = true ∨ k = i := by
        intro k hk
        rw [hg3, markCell_cells] at hk
        by_cases he : k = i
        · exact Or.inr he
        · rw [if_neg he] at hk
          exact Or.inl hk
      by_cases hsur : (g3.cells i).surrounding = some 0
      · rw [if_pos hsur]
        have hσ0 : (g0.cells i).surrounding = some 0 := by
          rw [hg3, (markCell_board h i i).2] at hsur
          rw [← hσeq i]
          exact hsur
        have hilt0 : i < g0.nCells := by
          have hnc : h.nCells = g0.nCells := by unfold Game.nCells; rw [hx, hy]
          omega
        have hcnt0 : adjBombCount g0 i = 0 := by
          have hσc := (hgen i hilt0).2 hib0
          rw [hσ0] at hσc
          exact (Option.some.inj hσc).symm
        have hco3 : Coherent g3 := hctx3.2.2.2.1
        have hi3 : i < g3.nCells := hilt
        have htsprop : ∀ k ∈ targetsXY g3.nCellsX g3.nCellsY ((g3.cells i).x)
            ((g3.cells i).y), k < h.nCells ∧ (g0.cells k).isBomb = false := by
          intro k hk
          have hadj := (targets_of_coherent g3 hco3 i hi3 k).mp hk
          refine ⟨?_, ?_⟩
          · have hkub := adj_lt_right hadj
            have hd3 : g3.nCells = h.nCells := (stepPres_markCell h i).nCells_eq
            have hn3 : g3.nCells = g3.nCellsX * g3.nCellsY := rfl
            omega
          · rw [hctx3.2.1, hctx3.2.2.1] at hadj
            exact adjBombCount_zero g0 i hcnt0 k hadj
        have keyfold : ∀ (ts : List ℕ) (h2 : Game), CascadeCtx g0 h2 →
            unclickedCount h2 < f → h2.nCells = h.nCells →
            (∀ k ∈ ts, k < h.nCells ∧ (g0.cells k).isBomb = false) →
            (∀ k ∈ ts, (((ts.foldl (fun a b => clickUpdateCellF s f a b) h2).cells
                k).isClicked = true)) ∧
            (∀ j, (((ts.foldl (fun a b => clickUpdateCellF s f a b) h2).cells
                j).isClicked = true) →
              (h2.cells j).isClicked = false →
              (g0.cells j).surrounding = some 0 →
              ∀ k, Adj g0.nCellsX g0.nCellsY j k →
                (((ts.foldl (fun a b => clickUpdateCellF s f a b) h2).cells
                  k).isClicked = true)) := by
          intro ts
          induction ts with
          | nil =>
            intro h2 _ _ _ _
            simp only [List.foldl_nil]
            refine ⟨fun k hk => absurd hk (List.not_mem_nil k), ?_⟩
            intro j hj hnj _ _
            rw [hnj] at hj
            exact absurd hj Bool.false_ne_true
          | cons t ts iht =>
            intro h2 hctx2 huc2 hn2 hts2
            simp only [List.foldl_cons]
            have hthead := hts2 t (List.mem_cons_self t ts)
            have single := ih h2 t hctx2 huc2 (by omega) hthead.2
            have hctx3' := cascadeCtx_cucF s f g0 h2 t hctx2
            have hsp := stepPres_cucF s f h2 t
            have huc3 : unclickedCount (clickUpdateCellF s f h2 t) ≤ unclickedCount h2 :=
              unclickedCount_le_of_stepPres hsp
            have hn3eq : (clickUpdateCellF s f h2 t).nCells = h.nCells := by
              rw [hsp.nCells_eq]
              exact hn2
            have rest := iht (clickUpdateCellF s f h2 t) hctx3' (by omega) hn3eq
              (fun k hk => hts2 k (List.mem_cons_of_mem _ hk))
            constructor
            · intro k hk
              rcases List.mem_cons.mp hk with rfl | hk2
              · exact ((stepPres_cucFold s f ts (clickUpdateCellF s f h2 k)).2.2.2.2.2
                  k).2.2.2 single.1
              · exact rest.1 k hk2
            · intro j hj hnj hσj k hadj
              by_cases hj3 : ((clickUpdateCellF s f h2 t).cells j).isClicked = true
              · have hkc := single.2 j hj3 hnj hσj k hadj
                exact ((stepPres_cucFold s f ts (clickUpdateCellF s f h2 t)).2.2.2.2.2
                  k).2.2.2 hkc
              · exact rest.2 j hj (Bool.eq_false_iff.mpr hj3) hσj k hadj
        obtain ⟨hA, hB⟩ := keyfold
          (targetsXY g3.nCellsX g3.nCellsY ((g3.cells i).x) ((g3.cells i).y))
          g3 hctx3 (by omega) rfl htsprop
        refine ⟨?_, ?_⟩
        · exact ((stepPres_cucFold s f _ g3).2.2.2.2.2 i).2.2.2 (markCell_self_clicked h i)
        · intro j hj hnj hσj k hadj
          by_cases hj3 : (g3.cells j).isClicked = true
          · rcases hmark j hj3 with hh | rfl
            · rw [hnj] at hh
              exact absurd hh Bool.false_ne_true
            · have hadj3 : Adj g3.nCellsX g3.nCellsY j k := by
                rw [hctx3.2.1, hctx3.2.2.1]
                exact hadj
              have hkmem := (targets_of_coherent g3 hco3 j hi3 k).mpr hadj3
              exact hA k hkmem
          · exact hB j hj (Bool.eq_false_iff.mpr hj3) hσj k hadj
      · rw [if_neg hsur]
        refine ⟨markCell_self_clicked h i, ?_⟩
        intro j hj hnj hσj k hadj
        rcases hmark j hj with hh | rfl
        · rw [hnj] at hh
          exact absurd hh Bool.false_ne_true
        · exfalso
          apply hsur
          rw [hg3, (markCell_board h j j).2, hσeq _, hσj]

/-- C1: on a generated board with the zero-closure of the start cell still
unrevealed, revealing a safe zero-count cell reveals exactly its connected
zero-region together with its border (the `ZReach` closure), and marks no
other cell revealed. -/
theorem cascade_reveals_zero_closure (g : Game) (s : List ℕ) (start : ℕ)
    (hgen : Generated g) (hco : Coherent g) (h0 : g.nClickedCells ≠ 0)
    (hs : start < g.nCells) (hsb : (g.cells start).isBomb = false)
    (hσ : (g.cells start).surrounding = some 0)
    (hreg : ∀ j, ZReach g start j → (g.cells j).surrounding = some 0 →
      (g.cells j).isClicked = false) :
    ∀ j, ((g.clickUpdateCell s start).cells j).isClicked = true ↔
      ((g.cells j).isClicked = true ∨ ZReach g start j) := by
  have hctx : CascadeCtx g g := ⟨h0, rfl, rfl, hco, fun _ => rfl, fun _ => rfl⟩
  have hfuel : unclickedCount g < g.nCells + 1 :=
    lt_of_le_of_lt (unclickedCount_le_nCells g) (Nat.lt_succ_self _)
  have hcomp := cucF_complete s g hgen (g.nCells + 1) g start hctx hfuel hs hsb
  intro j
  constructor
  · intro hj
    exact cucF_sound s g start hgen hs hsb (g.nCells + 1) g start hctx ZReach.start j hj
  · rintro (hc | hz)
    · exact ((stepPres_clickUpdateCell g s start).2.2.2.2.2 j).2.2.2 hc
    · induction hz with
      | start => exact hcomp.1
      | next h1 h2 h3 ihz =>
        exact hcomp.2 _ ihz (hreg _ h1 h2) h2 _ h3

/-- Concrete instance of C1: a 4×1 board with the bomb at 3, cell 2 (count
1) already revealed; revealing the zero cell 0 reveals exactly the zero
region {0, 1} plus its border cell 2, checked here at cell 1. -/
theorem cascade_reveals_zero_closure_witness :
    ((((Game.mkInit 4 1 1).clickUpdateCell [2] 2).clickUpdateCell [2] 0).cells
        1).isClicked = true ↔
      ((((Game.mkInit 4 1 1).clickUpdateCell [2] 2).cells 1).isClicked = true ∨
        ZReach ((Game.mkInit 4 1 1).clickUpdateCell [2] 2) 0 1) :=
  cascade_reveals_zero_closure ((Game.mkInit 4 1 1).clickUpdateCell [2] 2) [2] 0
    (by decide) (by decide) (by decide) (by decide) (by decide) (by decide)
    (fun j hzj hσj => by
      have hj4 : j < 4 :=
        zreach_lt ((Game.mkInit 4 1 1).clickUpdateCell [2] 2) 0 j (by decide) hzj
      interval_cases j <;> revert hσj <;> decide) 1

end Minesweeper
